import Mathlib

/-!
Verification of the raptor-rs transit-routing library against its
natural-language specification.  The Rust sources are shallowly embedded:
`u32` timestamps become naturals below `2 ^ 32` (with explicit saturating /
wrapping arithmetic where the source uses it), the `f32` pathfinding cost
becomes `ℚ` (only order comparisons on non-NaN literals are ever performed
on it), vectors become lists, and panicking operations return `Option`
(`none` models a panic).
-/

namespace RaptorRS

/-- Modulus of the `u32` type used for `Timestamp` in `network.rs`. -/
def U32MOD : ℕ := 2 ^ 32

/-- Model of `Timestamp::MAX` (`u32::MAX`). -/
def TMAX : ℕ := U32MOD - 1

/-- Model of `u32::saturating_add` on values below `2 ^ 32`. -/
def satAdd (a b : ℕ) : ℕ := min (a + b) TMAX

/-- Model of release-mode `u32` subtraction, which wraps on underflow. -/
def wrapSub (a b : ℕ) : ℕ := (a + U32MOD - b) % U32MOD

/-! ## Time strings (`utils.rs`)

`get_time_str` only ever emits decimal digits and colons, and `parse_time`
treats any other character as a parse failure; the character alphabet is
therefore modelled by `TChar`. -/

/-- A character of a time string: a decimal digit (its value) or a colon. -/
inductive TChar where
  | digit (d : ℕ)
  | colon
deriving DecidableEq

/-- Decimal digit list (most significant first) of `n`, as Rust's `Display`
for `u32` produces: `"0"` for zero, no leading zeros otherwise. -/
def numStr (n : ℕ) : List ℕ :=
  if n = 0 then [0] else (Nat.digits 10 n).reverse

/-- Model of the `{:02}` format specifier: pad with leading zeros to width 2. -/
def pad2 (n : ℕ) : List ℕ :=
  List.replicate (2 - (numStr n).length) 0 ++ numStr n

/-- Model of `utils::get_time_str`: `format!("{:02}:{:02}:{:02}", h, m, s)`
with `h = time / 3600`, `m = time % 3600 / 60`, `s = time % 60`. -/
def get_time_str (time : ℕ) : List TChar :=
  (pad2 (time / 3600)).map TChar.digit
    ++ TChar.colon :: ((pad2 (time % 3600 / 60)).map TChar.digit
    ++ TChar.colon :: (pad2 (time % 60)).map TChar.digit)

/-- Model of `str::split(':')`: split into (possibly empty) colon-free parts. -/
def splitOnColon : List TChar → List (List TChar)
  | [] => [[]]
  | TChar.colon :: rest => [] :: splitOnColon rest
  | c :: rest =>
    match splitOnColon rest with
    | [] => [[c]]
    | s :: ss => (c :: s) :: ss

/-- Digit values of a part, or `none` if it contains a non-digit. -/
def digitVals : List TChar → Option (List ℕ)
  | [] => some []
  | TChar.digit d :: rest => (digitVals rest).map (fun l => d :: l)
  | TChar.colon :: _ => none

/-- Model of `str::parse::<u32>`: fails on the empty string, on a non-digit
character, and on overflow past `u32::MAX`. -/
def parseU32 (s : List TChar) : Option ℕ :=
  match digitVals s with
  | none => none
  | some ds =>
    if ds.isEmpty then none
    else
      let v := ds.foldl (fun a d => a * 10 + d) 0
      if v ≤ TMAX then some v else none

/-- The only error `utils::parse_time` surfaces
(`gtfs_structures::Error::InvalidTime`). -/
inductive TimeError where
  | InvalidTime
deriving DecidableEq

/-- Model of `utils::parse_time`: length check, split on `':'` into exactly
three parts, two-digit minute and second fields, then
`hours * 3600 + minutes * 60 + seconds` in (release-mode, wrapping) `u32`
arithmetic. -/
def parse_time (s : List TChar) : Except TimeError ℕ :=
  if s.length < 7 then Except.error TimeError.InvalidTime
  else
    match splitOnColon s with
    | [h, m, sec] =>
      if m.length ≠ 2 ∨ sec.length ≠ 2 then Except.error TimeError.InvalidTime
      else
        match parseU32 h, parseU32 m, parseU32 sec with
        | some hv, some mv, some sv =>
          Except.ok ((hv * 3600 + mv * 60 + sv) % U32MOD)
        | _, _, _ => Except.error TimeError.InvalidTime
    | _ => Except.error TimeError.InvalidTime

/-! ## Route derivation: trip ordering (`network.rs`, `Network::new`)

Phase C of `Network::new` sorts the trips of each derived route with
`route_trips.sort_unstable_by_key(|x| x.stop_times[0].arrival_time)`:
the key is the *arrival* time at the first stop.  The sort is modelled by an
insertion sort on the same key (`sort_unstable_by_key` guarantees only that
the result is sorted by the key). -/

/-- One `(arrival_time, departure_time)` entry of `stop_times`. -/
structure StopTime where
  arrival_time : ℕ
  departure_time : ℕ
deriving DecidableEq

/-- Sort key used by `Network::new` for the trips of a route:
`x.stop_times[0].arrival_time`. -/
def firstStopArrival (trip : List StopTime) : ℕ :=
  (trip.headD ⟨0, 0⟩).arrival_time

/-- Insert a trip into a list sorted by `firstStopArrival`. -/
def insertTrip (t : List StopTime) : List (List StopTime) → List (List StopTime)
  | [] => [t]
  | u :: us =>
    if firstStopArrival t ≤ firstStopArrival u then t :: u :: us
    else u :: insertTrip t us

/-- Model of the per-route trip sort in `Network::new`
(`sort_unstable_by_key` on the first-stop arrival time). -/
def sortTripsByFirstArrival : List (List StopTime) → List (List StopTime)
  | [] => []
  | t :: ts => insertTrip t (sortTripsByFirstArrival ts)

/-- Departure time of a trip at stop order 0 (`stop_times[0].departure_time`). -/
def firstStopDeparture (trip : List StopTime) : ℕ :=
  (trip.headD ⟨0, 0⟩).departure_time

/-- A route whose two trips expose the gap between arrival-sorted and
departure-sorted: the first trip dwells 90 seconds at its first stop. -/
def tripEarlyArrLateDep : List StopTime := [⟨10, 100⟩]

/-- Companion trip: arrives later at the first stop but departs earlier. -/
def tripLateArrEarlyDep : List StopTime := [⟨20, 30⟩]

/-! ## Journey data model (`journey.rs`, `network.rs`) -/

/-- Model of `GlobalTripIndex`: the pair `(route_idx, trip_order)`. -/
structure GlobalTripIndex where
  route_idx : ℕ
  trip_order : ℕ
deriving DecidableEq

/-- Model of `journey::Boarding`. -/
structure Boarding where
  boarded_stop : ℕ
  boarded_stop_order : ℕ
  boarded_time : ℕ
  trip : GlobalTripIndex
deriving DecidableEq

/-! ## Labels and bags (`multicriteria.rs`)

`PathfindingCost` is `f32` in the source; it is modelled by `ℚ`, on which the
code performs only order comparisons (all costs reaching the bag in the
claims are finite decimal literals whose `f32` images are ordered exactly as
their rational values). -/

namespace MC

/-- Model of `multicriteria::Label`. -/
structure Label where
  arrival_time : ℕ
  cost : ℚ
  boarding : Option Boarding
deriving DecidableEq

/-- Construct a label with no boarding, as `Label::new` does. -/
def Label.new (arrival_time : ℕ) (cost : ℚ) : Label :=
  ⟨arrival_time, cost, none⟩

/-- Model of `Label::dominates`:
`arrival_time ≤ other.arrival_time && cost ≤ other.cost`. -/
def Label.dominates (a b : Label) : Prop :=
  a.arrival_time ≤ b.arrival_time ∧ a.cost ≤ b.cost

instance (a b : Label) : Decidable (a.dominates b) := instDecidableAnd

/-- Placeholder label used only to give `getD` a default; every `getD` in
`bagAdd` is performed at an index proved in bounds. -/
def dfl : Label := ⟨0, 0, none⟩

/-- Model of `iter().position(pred)`: index of the first element whose
arrival time exceeds the new label's (the partition point of `Bag::add`). -/
def partitionIdx (new : Label) : List Label → Option ℕ
  | [] => none
  | l :: ls =>
    if new.arrival_time < l.arrival_time then some 0
    else (partitionIdx new ls).map (fun i => i + 1)

/-- Model of `Bag::<N>::add` on the label list of a bag of capacity `N`.
Returns `none` where the Rust panics: the `ArrayVec::push` into a bag of
capacity 0, and the `unreachable!` in the equal-arrival branch (proved dead
below).  Otherwise returns the new label list and the boolean result. -/
def bagAdd (N : ℕ) (labels : List Label) (new : Label) :
    Option (List Label × Bool) :=
  if labels.isEmpty then
    if N = 0 then none else some ([new], true)
  else
    let part := partitionIdx new labels
    let is_last := part.isNone
    let p := part.getD labels.length
    if (labels.take p).any (fun l => decide (l.cost ≤ new.cost)) then
      some (labels, false)
    else
      -- retain: keep the prefix, and of the suffix only labels that the new
      -- label does not dominate (cost strictly below the new cost)
      let labels1 :=
        if is_last then labels
        else labels.take p ++ (labels.drop p).filter (fun l => decide (l.cost < new.cost))
      if p ≠ 0 ∧ (labels1.getD (p - 1) dfl).arrival_time = new.arrival_time then
        if new.cost < (labels1.getD (p - 1) dfl).cost then
          some (labels1.set (p - 1) new, true)
        else
          none   -- `unreachable!`
      else
        if labels1.length = N then
          if is_last then
            if new.arrival_time < (labels1.getLastD dfl).arrival_time then
              some (labels1.dropLast.insertIdx p new, true)
            else
              some (labels1, false)
          else
            some (labels1.dropLast.insertIdx p new, true)
        else
          some (labels1.insertIdx p new, true)

/-- Fold a sequence of `add` calls from a given bag, collecting results;
`none` if any call panics. -/
def bagAddAll (N : ℕ) : List Label → List Label → Option (List Label × List Bool)
  | [], bag => some (bag, [])
  | l :: ls, bag =>
    match bagAdd N bag l with
    | none => none
    | some (bag1, r) =>
      match bagAddAll N ls bag1 with
      | none => none
      | some (bagF, rs) => some (bagF, r :: rs)

/-- The bag obtained by adding a sequence of labels to the empty bag. -/
def bagInsertAll (N : ℕ) (ls : List Label) : Option (List Label) :=
  (bagAddAll N ls []).map (fun pr => pr.1)

/-- The literal call sequence of the spec's bag tests (§8 of the spec); the
fractional `f32` costs are written with `mkRat` (`4.5 = mkRat 9 2`, …). -/
def bagTestSeq : List Label :=
  [Label.new 5 5, Label.new 5 5, Label.new 12 9, Label.new 9 12,
   Label.new 5 7, Label.new 7 5, Label.new 7 3, Label.new 4 10,
   Label.new 3 50, Label.new 2 5, Label.new 1 (mkRat 9 2),
   Label.new 7 (mkRat 5 2), Label.new 7 (mkRat 12 5), Label.new 7 (mkRat 13 5),
   Label.new 8 (mkRat 19 10), Label.new 9 (mkRat 9 5),
   Label.new 10 (mkRat 17 10), Label.new 6 4]

/-- Expected boolean results of the literal sequence. -/
def bagTestResults : List Bool :=
  [true, false, false, false, false, false, true, true, true, true,
   true, true, true, false, true, true, true, true]

/-- The bag contents after the literal sequence: `(10, 1.7)` has been
evicted by `add(6, 4.0)`. -/
def bagTestFinal : List Label :=
  [Label.new 1 (mkRat 9 2), Label.new 6 4, Label.new 7 (mkRat 12 5),
   Label.new 8 (mkRat 19 10), Label.new 9 (mkRat 9 5)]

/-- The ordering the bag maintains between a stored label and any stored
label after it: strictly larger arrival time and strictly smaller cost.  For
two labels in this relation, both domination directions fail. -/
def Rlab (a b : Label) : Prop :=
  a.arrival_time < b.arrival_time ∧ b.cost < a.cost

/-- The bag invariant of the spec: labels pairwise non-dominating and sorted
by strictly increasing arrival time (hence strictly decreasing cost), within
capacity. -/
def BagInv (N : ℕ) (bag : List Label) : Prop :=
  bag.Pairwise Rlab ∧ bag.length ≤ N

end MC

/-! ## Network slice used by CSA and journey reconstruction
(`network.rs`, `journey.rs`) -/

/-- Model of `journey::Connection`. -/
structure Connection where
  sequential_trip_idx : ℕ
  trip : GlobalTripIndex
  departure_idx : ℕ
  departure_stop_order : ℕ
  departure_time : ℕ
  arrival_idx : ℕ
  arrival_time : ℕ
deriving DecidableEq

/-- Model of `Boarding::from(connection)`. -/
def Boarding.fromConnection (c : Connection) : Boarding :=
  ⟨c.departure_idx, c.departure_stop_order, c.departure_time, c.trip⟩

/-- Model of `journey::TauEntry`. -/
structure TauEntry where
  time : ℕ
  boarding : Option Boarding
deriving DecidableEq

/-- Model of `TauEntry::default()`: `Timestamp::MAX`, no boarding. -/
def TauEntry.dflt : TauEntry := ⟨TMAX, none⟩

/-- The fields of `network::Route` used by CSA and reconstruction. -/
structure Route where
  num_stops : ℕ
  num_trips : ℕ
  route_stops_idx : ℕ
  stop_times_idx : ℕ
deriving DecidableEq

/-- Model of `Route::get_stops`: the slice
`route_stops[route_stops_idx .. route_stops_idx + num_stops]`. -/
def Route.get_stops (r : Route) (route_stops : List ℕ) : List ℕ :=
  (route_stops.drop r.route_stops_idx).take r.num_stops

/-- The fields of `network::Network` used by the claims: CSA and journey
reconstruction never touch stop names, points, or the stop-id map. -/
structure Network where
  routes : List Route
  numStops : ℕ
  num_trips : ℕ
  stop_times : List StopTime
  route_stops : List ℕ
  connections : List Connection
  transfer_times : List ℕ
deriving DecidableEq

/-- Model of `journey::Leg`. -/
structure Leg where
  boarded_stop : ℕ
  boarded_stop_order : ℕ
  boarded_time : ℕ
  arrival_stop : ℕ
  arrival_stop_order : ℕ
  arrival_time : ℕ
  transfer_time : Option ℕ
  trip : GlobalTripIndex
deriving DecidableEq

/-- Model of `journey::JourneyError`. -/
inductive JourneyError where
  | ZeroAgents
  | NoJourneyFound
  | InfiniteLoop
deriving DecidableEq

instance {ε α : Type} [DecidableEq ε] [DecidableEq α] : DecidableEq (Except ε α) :=
  fun x y =>
    match x, y with
    | Except.ok a, Except.ok b => decidable_of_iff (a = b) (by simp)
    | Except.error a, Except.error b => decidable_of_iff (a = b) (by simp)
    | Except.ok _, Except.error _ => isFalse (by simp)
    | Except.error _, Except.ok _ => isFalse (by simp)

/-- Model of `journey::Journey` (without the back-reference to the network,
which carries no data used by the claims). -/
structure Journey where
  legs : List Leg
  duration : ℕ
  cost : ℚ
deriving DecidableEq

/-- Model of `Journey::empty`. -/
def Journey.empty : Journey := ⟨[], 0, 0⟩

/-- Model of `u32::checked_sub`. -/
def checkedSub (a b : ℕ) : Option ℕ := if b ≤ a then some (a - b) else none

/-- Model of `Journey::from`: duration is
`last.arrival_time.checked_sub(first.boarded_time)` with 0 on underflow,
and 0 when there are no legs. -/
def Journey.mk_from (legs : List Leg) (cost : ℚ) : Journey :=
  let duration :=
    match legs.head?, legs.getLast? with
    | some first, some last => (checkedSub last.arrival_time first.boarded_time).getD 0
    | _, _ => 0
  ⟨legs, duration, cost⟩

/-- Model of `Journey::calculate_arrival_stop_order`: scan the route's stop
sequence from the boarded stop order for the arrival stop; the source's
`.expect(...)` panic is `none`. -/
def calculate_arrival_stop_order (route : Route) (net : Network)
    (boarded_leg : Boarding) (current_stop : ℕ) : Option ℕ :=
  ((route.get_stops net.route_stops).enum.drop boarded_leg.boarded_stop_order).findSome?
    (fun si => if si.2 = current_stop then some si.1 else none)

/-- Build the `Leg` pushed by `Journey::from_tau` at `current_stop`; `none`
models the panics (route index out of bounds, arrival stop not on route). -/
def mkTauLeg (net : Network) (boarded_leg : Boarding) (current_stop : ℕ)
    (arrival_time : ℕ) (last_boarding : Option Boarding) : Option Leg :=
  match net.routes.get? boarded_leg.trip.route_idx with
  | none => none
  | some route =>
    match calculate_arrival_stop_order route net boarded_leg current_stop with
    | none => none
    | some arrival_stop_order =>
      some
        { boarded_stop := boarded_leg.boarded_stop
          boarded_stop_order := boarded_leg.boarded_stop_order
          boarded_time := boarded_leg.boarded_time
          arrival_stop := current_stop
          arrival_stop_order := arrival_stop_order
          arrival_time := arrival_time
          transfer_time :=
            last_boarding.map (fun lb => wrapSub lb.boarded_time arrival_time)
          trip := boarded_leg.trip }

/-- The reconstruction loop of `Journey::from_tau`.  The source counts loop
iterations upward in `num_legs` and errors once `num_legs > MAX_LEGS = 100`
*before* the iteration's work; here `remaining = 100 - num_legs` counts the
same bound downward, so the loop errors exactly when the 101st iteration
begins. -/
def fromTauGo (tau : List TauEntry) (net : Network) (s : ℕ) :
    Option ℕ → List Leg → Option Boarding → ℕ →
      Option (Except JourneyError (List Leg))
  | none, legs, _, _ => some (Except.ok legs)
  | some cur, legs, last_boarding, remaining =>
    if cur = s then some (Except.ok legs)
    else
      match remaining with
      | 0 => some (Except.error JourneyError.InfiniteLoop)
      | remaining + 1 =>
        match tau.get? cur with
        | none => none
        | some current_tau =>
          match current_tau.boarding with
          | none => fromTauGo tau net s none legs last_boarding remaining
          | some boarded_leg =>
            match mkTauLeg net boarded_leg cur current_tau.time last_boarding with
            | none => none
            | some leg =>
              fromTauGo tau net s (some boarded_leg.boarded_stop)
                (legs.concat leg) (some boarded_leg) remaining

/-- Model of `Journey::from_tau`. -/
def from_tau (tau : List TauEntry) (net : Network) (s e : ℕ) :
    Option (Except JourneyError Journey) :=
  match tau.get? e with
  | none => none
  | some te =>
    if te.boarding.isNone then some (Except.error JourneyError.NoJourneyFound)
    else
      match fromTauGo tau net s (some e) [] none 100 with
      | none => none
      | some (Except.error err) => some (Except.error err)
      | some (Except.ok legs) => some (Except.ok (Journey.mk_from legs.reverse 0))

/-- Model of `JourneyPreferences::best_label`: among the labels arriving
strictly before `next_boarding_time`, the first one minimising the utility
(`Iterator::min_by` keeps the earlier of two equal elements). -/
def bestLabel (util : MC.Label → ℕ → ℚ) (next_boarding_time : ℕ)
    (labels : List MC.Label) (start_time : ℕ) : Option MC.Label :=
  (labels.filter (fun l => decide (l.arrival_time < next_boarding_time))).foldl
    (fun acc l =>
      match acc with
      | none => some l
      | some m => if util l start_time < util m start_time then some l else some m)
    none

/-- The reconstruction loop of `Journey::from_tau_bag`.  The source
increments `num_legs` *after* the body and errors once `num_legs > 100`, so a
label chosen in the 101st iteration is still materialised before
`InfiniteLoop` is returned (and then discarded); `remaining = 100 - num_legs`
counts the same bound downward. -/
def fromTauBagGo (tau : List (List MC.Label)) (net : Network) (s : ℕ)
    (util : MC.Label → ℕ → ℚ) (start_time : ℕ) :
    Option ℕ → List Leg → Option Boarding → ℕ →
      Option (Except JourneyError (List Leg))
  | none, legs, _, _ => some (Except.ok legs)
  | some cur, legs, next_boarding, remaining =>
    if cur = s then some (Except.ok legs)
    else
      let nbt := (next_boarding.map (fun b => b.boarded_time)).getD TMAX
      match tau.get? cur with
      | none => none
      | some bag =>
        let step : Option (List Leg × Option ℕ × Option Boarding) :=
          match bestLabel util nbt bag start_time with
          | none => some (legs, some cur, next_boarding)
          | some current_tau =>
            match current_tau.boarding with
            | none => some (legs, none, next_boarding)
            | some boarded_leg =>
              match mkTauLeg net boarded_leg cur current_tau.arrival_time
                  next_boarding with
              | none => none
              | some leg =>
                some (legs.concat leg, some boarded_leg.boarded_stop,
                  some boarded_leg)
        match step with
        | none => none
        | some (legs1, curOpt1, nb1) =>
          match remaining with
          | 0 => some (Except.error JourneyError.InfiniteLoop)
          | remaining + 1 =>
            fromTauBagGo tau net s util start_time curOpt1 legs1 nb1 remaining

/-- Model of `Journey::from_tau_bag` (`journey.rs`).  `util` models the
`JourneyPreferences` utility closure; `none` models the panics (index out of
bounds, empty start bag, and the `journey_cost` `unwrap`). -/
def from_tau_bag (tau : List (List MC.Label)) (net : Network) (s e : ℕ)
    (util : MC.Label → ℕ → ℚ) : Option (Except JourneyError Journey) :=
  match tau.get? e with
  | none => none
  | some endBag =>
    if endBag.isEmpty then some (Except.error JourneyError.NoJourneyFound)
    else
      match tau.get? s with
      | none => none
      | some startBag =>
        match startBag.head? with
        | none => none
        | some l0 =>
          let start_time := l0.arrival_time
          match bestLabel util TMAX endBag start_time with
          | none => none
          | some best =>
            match fromTauBagGo tau net s util start_time (some e) [] none 100 with
            | none => none
            | some (Except.error err) => some (Except.error err)
            | some (Except.ok legs) =>
              some (Except.ok (Journey.mk_from legs.reverse best.cost))

/-! ## The CSA sweep (`csa.rs`) -/

/-- Per-query state of `csa_query`: the `τ` array, the `end_time` bound and
the per-trip reachability flags. -/
structure SweepState where
  tau : List TauEntry
  end_time : ℕ
  trip_reachable : List Bool
deriving DecidableEq

/-- Placeholder connection for `getD`; the binary search only reads indices
that are in bounds. -/
def dflConn : Connection := ⟨0, ⟨0, 0⟩, 0, 0, 0, 0, 0⟩

/-- The loop of `slice::partition_point` (via `binary_search_by`): on entry
`lo = 0`, `hi = len`; narrows until `lo = hi`.  The explicit `fuel`
(initially `len`) only bounds the recursion: each step shrinks `hi - lo` by
at least one, so the fuel never runs out on the initial call. -/
def ppGo (conns : List Connection) (t : ℕ) : ℕ → ℕ → ℕ → ℕ
  | 0, lo, _ => lo
  | fuel + 1, lo, hi =>
    if lo < hi then
      let mid := lo + (hi - lo) / 2
      if (conns.getD mid dflConn).departure_time < t then
        ppGo conns t fuel (mid + 1) hi
      else ppGo conns t fuel lo mid
    else lo

/-- Model of
`connections.partition_point(|c| c.departure_time < start_time)`. -/
def partition_point (conns : List Connection) (start_time : ℕ) : ℕ :=
  ppGo conns start_time conns.length 0 conns.length

/-- The body of the CSA connection loop for one connection (`csa.rs` lines
28-72), without the `break` test.  Note the source reads the transfer time of
the connection's *arrival* stop (zero when the arrival stop is the query
origin) and adds it to `τ` at the *departure* stop. -/
def processConn (start e : ℕ) (transfer_times : List ℕ) (st : SweepState)
    (c : Connection) : SweepState :=
  let transfer_time :=
    if c.arrival_idx = start then 0 else transfer_times.getD c.arrival_idx 0
  let reachable := st.trip_reachable.getD c.sequential_trip_idx false
  if ¬reachable ∧
      c.departure_time <
        satAdd (st.tau.getD c.departure_idx TauEntry.dflt).time transfer_time then
    st
  else
    let st1 :=
      if reachable then st
      else { st with
              trip_reachable := st.trip_reachable.set c.sequential_trip_idx true }
    if c.arrival_time < (st1.tau.getD c.arrival_idx TauEntry.dflt).time then
      let tau1 :=
        st1.tau.set c.arrival_idx
          { st1.tau.getD c.arrival_idx TauEntry.dflt with time := c.arrival_time }
      let tau2 :=
        match (tau1.getD c.departure_idx TauEntry.dflt).boarding with
        | some boarding =>
          if boarding.trip = c.trip then
            tau1.set c.arrival_idx
              { tau1.getD c.arrival_idx TauEntry.dflt with boarding := some boarding }
          else
            tau1.set c.arrival_idx
              { tau1.getD c.arrival_idx TauEntry.dflt with
                  boarding := some (Boarding.fromConnection c) }
        | none =>
          let tau' :=
            tau1.set c.departure_idx
              { tau1.getD c.departure_idx TauEntry.dflt with
                  boarding := some (Boarding.fromConnection c) }
          tau'.set c.arrival_idx
            { tau'.getD c.arrival_idx TauEntry.dflt with
                boarding := (tau'.getD c.departure_idx TauEntry.dflt).boarding }
      let end_time1 := if c.arrival_idx = e then c.arrival_time else st1.end_time
      { tau := tau2, end_time := end_time1, trip_reachable := st1.trip_reachable }
    else st1

/-- The CSA connection loop, including the early `break` once a connection
departs at or after `end_time`. -/
def csaLoop (start e : ℕ) (transfer_times : List ℕ) :
    List Connection → SweepState → SweepState
  | [], st => st
  | c :: rest, st =>
    if st.end_time ≤ c.departure_time then st
    else csaLoop start e transfer_times rest (processConn start e transfer_times st c)

/-- The complete CSA sweep of `csa_query`: initial `τ`, binary search for the
first relevant connection, then the connection loop. -/
def csaSweep (net : Network) (start start_time e : ℕ) : SweepState :=
  let tau0 := (List.replicate net.numStops TauEntry.dflt).set start ⟨start_time, none⟩
  let sc := partition_point net.connections start_time
  csaLoop start e net.transfer_times (net.connections.drop sc)
    ⟨tau0, TMAX, List.replicate net.num_trips false⟩

/-- The `τ` array after the CSA sweep. -/
def csaTau (net : Network) (start start_time e : ℕ) : List TauEntry :=
  (csaSweep net start start_time e).tau

/-- Model of `csa_query` (`csa.rs`): the `start == end` shortcut, the sweep,
then reconstruction via `Journey::from_tau`. -/
def csa_query (net : Network) (start start_time e : ℕ) :
    Option (Except JourneyError Journey) :=
  if start = e then some (Except.ok Journey.empty)
  else from_tau (csaTau net start start_time e) net start e

/-! ## Stop lookup by name and by id (`network.rs`)

Stop names and ids are modelled as lists of character codes.  The
canonicalisation of `Network::stop_name_cmp` — strip everything from
`" Railway Station"`, lowercase, remove spaces — is modelled over ASCII
codes, which cover every name the comparison is used on. -/

/-- ASCII lowercasing of one character code. -/
def lcChar (c : ℕ) : ℕ := if 65 ≤ c ∧ c ≤ 90 then c + 32 else c

/-- Character codes of `" Railway Station"`. -/
def railwayStationMarker : List ℕ :=
  [32, 82, 97, 105, 108, 119, 97, 121, 32, 83, 116, 97, 116, 105, 111, 110]

/-- Model of `utils::get_short_stop_name`:
`stop.split(" Railway Station").next().unwrap()`, i.e. everything before the
first occurrence of the marker. -/
def get_short_stop_name : List ℕ → List ℕ
  | [] => []
  | c :: rest =>
    if railwayStationMarker.isPrefixOf (c :: rest) then []
    else c :: get_short_stop_name rest

/-- Lowercase and remove spaces (`to_lowercase().replace(" ", "")`). -/
def lowerNoSpace (s : List ℕ) : List ℕ :=
  (s.map lcChar).filter (fun c => decide (c ≠ 32))

/-- Model of `Network::stop_name_cmp`: canonicalised equality, with the
short-name stripping applied only to the stored stop name `a`. -/
def stop_name_cmp (a b : List ℕ) : Bool :=
  lowerNoSpace (get_short_stop_name a) = lowerNoSpace b

/-- Model of `Network::get_stop_idx_from_name`: index of the first stored
stop name matching under `stop_name_cmp`, if any. -/
def get_stop_idx_from_name (stopNames : List (List ℕ)) (stop_name : List ℕ) :
    Option ℕ :=
  stopNames.findIdx? (fun nm => stop_name_cmp nm stop_name)

/-- Outcome of `Network::get_stop_idx`: either a stop index, or the panic of
`HashMap`'s `Index` impl on a missing key. -/
inductive LookupOutcome where
  | found (idx : ℕ)
  | panicked
deriving DecidableEq

/-- Model of `Network::get_stop_idx`: `self.stop_index[stop_id]`, which
panics when the id is absent from the map. -/
def get_stop_idx (stop_index : List (List ℕ × ℕ)) (stop_id : List ℕ) :
    LookupOutcome :=
  match stop_index.find? (fun p => p.1 = stop_id) with
  | some p => LookupOutcome.found p.2
  | none => LookupOutcome.panicked

/-- Character codes of `"Cheltenham Railway Station"`. -/
def cheltenhamName : List ℕ :=
  [67, 104, 101, 108, 116, 101, 110, 104, 97, 109] ++ railwayStationMarker

/-- Character codes of `"Atlantis"`. -/
def atlantisName : List ℕ := [65, 116, 108, 97, 110, 116, 105, 115]

/-! ## Concrete instances used by the counterexamples and witnesses -/

/-- Two stops `O = 0`, `A = 1`; one trip departing the origin `O` at the
query time 0 and arriving at `A` at 10; `transfer_times = [3, 5]`. -/
def netC2 : Network :=
  { routes := [⟨2, 1, 0, 0⟩]
    numStops := 2
    num_trips := 1
    stop_times := [⟨0, 0⟩, ⟨10, 10⟩]
    route_stops := [0, 1]
    connections := [⟨0, ⟨0, 0⟩, 0, 0, 0, 1, 10⟩]
    transfer_times := [3, 5] }

/-- Three stops `O = 0`, `A = 1`, `B = 2`; trip `U` runs `O → A` (dep 10,
arr 20), trip `T` runs `A → B` (dep 25, arr 40); the transfer time at `A`
is 7 seconds and at `B` 0 seconds. -/
def netC5 : Network :=
  { routes := [⟨2, 1, 0, 0⟩, ⟨2, 1, 2, 2⟩]
    numStops := 3
    num_trips := 2
    stop_times := [⟨10, 10⟩, ⟨20, 20⟩, ⟨25, 25⟩, ⟨40, 40⟩]
    route_stops := [0, 1, 1, 2]
    connections := [⟨0, ⟨0, 0⟩, 0, 0, 10, 1, 20⟩, ⟨1, ⟨1, 0⟩, 1, 0, 25, 2, 40⟩]
    transfer_times := [0, 7, 0] }

/-- The journey `csa_query netC5 0 0 2` returns: board `U` at `O`, alight at
`A` at 20, board `T` at `A` at 25, arrive `B` at 40. -/
def journeyC5 : Journey :=
  { legs :=
      [⟨0, 0, 10, 1, 1, 20, some 5, ⟨0, 0⟩⟩,
       ⟨1, 0, 25, 2, 1, 40, none, ⟨1, 0⟩⟩]
    duration := 30
    cost := 0 }

/-- Network backing the reconstruction loop tests: route 0 has stop sequence
`[2, 1]`, route 1 has `[1, 2]`. -/
def netC7 : Network :=
  { routes := [⟨2, 1, 0, 0⟩, ⟨2, 1, 2, 0⟩]
    numStops := 3
    num_trips := 2
    stop_times := [⟨0, 0⟩, ⟨0, 0⟩]
    route_stops := [2, 1, 1, 2]
    connections := []
    transfer_times := [0, 0, 0] }

/-- A corrupted `τ` array whose parent pointers form a cycle between stops 1
and 2 (start is stop 0, so the walk never reaches it). -/
def tauCyc : List TauEntry :=
  [⟨0, none⟩, ⟨5, some ⟨2, 0, 3, ⟨0, 0⟩⟩⟩, ⟨4, some ⟨1, 0, 2, ⟨1, 0⟩⟩⟩]

/-- The default `JourneyPreferences` utility: the label's arrival time. -/
def utilDefault : MC.Label → ℕ → ℚ := fun label _ => (label.arrival_time : ℚ)

/-- Bag-valued `τ` whose selected labels never reach the start: at stop 2 no
label arrives before the next boarding time, so the walk stalls there. -/
def tauBagCyc : List (List MC.Label) :=
  [[⟨0, 0, none⟩],
   [⟨5, 1, some ⟨2, 0, 3, ⟨0, 0⟩⟩⟩],
   [⟨4, 1, some ⟨1, 0, 2, ⟨1, 0⟩⟩⟩]]

/-- Placeholder leg used only as a `getD` default in closed statements. -/
def dflLeg : Leg := ⟨0, 0, 0, 0, 0, 0, none, ⟨0, 0⟩⟩

/-- A well-formed two-stop network for the witness journeys. -/
def netW : Network :=
  { routes := [⟨2, 1, 0, 0⟩]
    numStops := 2
    num_trips := 1
    stop_times := [⟨10, 10⟩, ⟨20, 20⟩]
    route_stops := [0, 1]
    connections := []
    transfer_times := [0, 0] }

/-- A one-leg `τ` array: stop 1 was reached from the start stop 0. -/
def tauW : List TauEntry := [⟨0, none⟩, ⟨20, some ⟨0, 0, 10, ⟨0, 0⟩⟩⟩]

/-- The journey reconstructed from `tauW`. -/
def journeyW : Journey :=
  { legs := [⟨0, 0, 10, 1, 1, 20, none, ⟨0, 0⟩⟩], duration := 10, cost := 0 }

/-- A one-leg bag-valued `τ` array matching `tauW`. -/
def tauBagW : List (List MC.Label) :=
  [[⟨0, 0, none⟩], [⟨20, 1, some ⟨0, 0, 10, ⟨0, 0⟩⟩⟩]]

/-- The journey reconstructed from `tauBagW` (its cost is the chosen end
label's cost). -/
def journeyBagW : Journey :=
  { legs := [⟨0, 0, 10, 1, 1, 20, none, ⟨0, 0⟩⟩], duration := 10, cost := 1 }

/-! # Theorems -/

/-! ## C1: trip ordering within a route -/

theorem insertTrip_perm (t : List StopTime) (l : List (List StopTime)) :
    (insertTrip t l).Perm (t :: l) := by
  induction l with
  | nil => simp [insertTrip]
  | cons u us ih =>
    by_cases h : firstStopArrival t ≤ firstStopArrival u
    · simp [insertTrip, h]
    · simp only [insertTrip, if_neg h]
      exact (ih.cons u).trans (List.Perm.swap t u us)

theorem insertTrip_mem {x t : List StopTime} {l : List (List StopTime)}
    (hx : x ∈ insertTrip t l) : x = t ∨ x ∈ l := by
  have := (insertTrip_perm t l).mem_iff.mp hx
  simpa using this

theorem insertTrip_pairwise {t : List StopTime} {l : List (List StopTime)}
    (hl : l.Pairwise fun a b => firstStopArrival a ≤ firstStopArrival b) :
    (insertTrip t l).Pairwise fun a b => firstStopArrival a ≤ firstStopArrival b := by
  induction l with
  | nil => simp [insertTrip]
  | cons u us ih =>
    rcases List.pairwise_cons.mp hl with ⟨hu, hus⟩
    by_cases h : firstStopArrival t ≤ firstStopArrival u
    · simp only [insertTrip, if_pos h]
      refine List.pairwise_cons.mpr ⟨?_, hl⟩
      intro b hb
      rcases List.mem_cons.mp hb with rfl | hb
      · exact h
      · exact le_trans h (hu b hb)
    · simp only [insertTrip, if_neg h]
      refine List.pairwise_cons.mpr ⟨?_, ih hus⟩
      intro b hb
      rcases insertTrip_mem hb with rfl | hb
      · omega
      · exact hu b hb

/-- C1 (amended): in every route built by `Network::new`, the trips are
sorted by the *arrival* time at the first stop (`sort_unstable_by_key` on
`stop_times[0].arrival_time`), and the sort is a permutation of the route's
trips.  The claim's departure-time ordering and its no-overtaking consequence
do not hold (see the counterexample). -/
theorem c1_trips_sorted_by_first_stop_arrival (ts : List (List StopTime)) :
    ((sortTripsByFirstArrival ts).Pairwise
        fun a b => firstStopArrival a ≤ firstStopArrival b)
      ∧ (sortTripsByFirstArrival ts).Perm ts := by
  induction ts with
  | nil => simp [sortTripsByFirstArrival]
  | cons t ts ih =>
    refine ⟨insertTrip_pairwise ih.1, ?_⟩
    exact (insertTrip_perm t (sortTripsByFirstArrival ts)).trans (ih.2.cons t)

/-- C1 (counterexample): two GTFS-legal trips on one route (each with
`arrival ≤ departure` at its only stop).  The arrival-time sort keeps the
trip that departs at 100 *before* the trip that departs at 30, so trip
`a = 0 < b = 1` has `departure(a, 0) = 100 > 30 = departure(b, 0)`,
refuting both the departure ordering and the no-overtaking property. -/
theorem c1_departure_order_counterexample :
    sortTripsByFirstArrival [tripEarlyArrLateDep, tripLateArrEarlyDep] =
        [tripEarlyArrLateDep, tripLateArrEarlyDep]
      ∧ ¬(firstStopDeparture tripEarlyArrLateDep ≤
            firstStopDeparture tripLateArrEarlyDep) := by
  decide

/-! ## C10: journey duration never underflows -/

/-- C10: `Journey::from` sets the duration to
`last.arrival_time - first.boarded_time` when that is non-negative, to 0 when
the subtraction would underflow (via `checked_sub` + `unwrap_or_else`), and
to 0 for an empty leg vector. -/
theorem c10_journey_duration (legs : List Leg) (cost : ℚ) :
    (legs = [] → (Journey.mk_from legs cost).duration = 0)
      ∧ ∀ f l, legs.head? = some f → legs.getLast? = some l →
          (f.boarded_time ≤ l.arrival_time →
            (Journey.mk_from legs cost).duration =
              l.arrival_time - f.boarded_time)
          ∧ (l.arrival_time < f.boarded_time →
              (Journey.mk_from legs cost).duration = 0) := by
  constructor
  · intro h; subst h; rfl
  · intro f l hf hl
    constructor
    · intro hle
      simp [Journey.mk_from, hf, hl, checkedSub, hle]
    · intro hlt
      have : ¬ f.boarded_time ≤ l.arrival_time := by omega
      simp [Journey.mk_from, hf, hl, checkedSub, this]

theorem c10_journey_duration_witness :
    ((Journey.mk_from [] (0 : ℚ)).duration = 0)
      ∧ ((Journey.mk_from [⟨0, 0, 10, 1, 1, 20, none, ⟨0, 0⟩⟩] 0).duration = 10)
      ∧ ((Journey.mk_from [⟨0, 0, 30, 1, 1, 20, none, ⟨0, 0⟩⟩] 0).duration = 0) :=
  ⟨(c10_journey_duration [] 0).1 rfl,
   ((c10_journey_duration [⟨0, 0, 10, 1, 1, 20, none, ⟨0, 0⟩⟩] 0).2 _ _ rfl rfl).1
     (by decide),
   ((c10_journey_duration [⟨0, 0, 30, 1, 1, 20, none, ⟨0, 0⟩⟩] 0).2 _ _ rfl rfl).2
     (by decide)⟩

/-! ## C9: unknown stop lookups -/

/-- C9 (counterexample): the id `"Atlantis"` is absent from the stop-id map,
and `Network::get_stop_idx` panics on it (`self.stop_index[stop_id]` uses
`HashMap`'s panicking `Index` impl) instead of returning absence. -/
theorem c9_get_stop_idx_counterexample :
    (∀ p ∈ [(cheltenhamName, 0)], p.1 ≠ atlantisName)
      ∧ get_stop_idx [(cheltenhamName, 0)] atlantisName =
          LookupOutcome.panicked := by
  decide

/-- C9 (amended): `get_stop_idx_from_name` returns `none` exactly when no
stored stop name matches under the canonicalised comparison (in particular
for `"Atlantis"`), while `get_stop_idx` *panics* — it does not return
absence — on every id absent from the stop-id map. -/
theorem c9_lookup_amended :
    (∀ (stopNames : List (List ℕ)) (nm : List ℕ),
        get_stop_idx_from_name stopNames nm = none ↔
          ∀ s ∈ stopNames, stop_name_cmp s nm = false)
      ∧ get_stop_idx_from_name [cheltenhamName] atlantisName = none
      ∧ ∀ (idx : List (List ℕ × ℕ)) (id : List ℕ),
          (∀ p ∈ idx, p.1 ≠ id) →
            get_stop_idx idx id = LookupOutcome.panicked := by
  refine ⟨?_, by decide, ?_⟩
  · intro stopNames nm
    unfold get_stop_idx_from_name
    rw [List.findIdx?_eq_none_iff]
  · intro idx id h
    unfold get_stop_idx
    have : idx.find? (fun p => decide (p.1 = id)) = none := by
      rw [List.find?_eq_none]
      intro p hp
      simp [h p hp]
    rw [this]

theorem c9_lookup_amended_witness :
    get_stop_idx [(cheltenhamName, 0)] atlantisName = LookupOutcome.panicked :=
  c9_lookup_amended.2.2 [(cheltenhamName, 0)] atlantisName (by decide)

/-! ## C8: time-string round trip -/

theorem foldl_digit_reverse (L : List ℕ) (a : ℕ) :
    L.reverse.foldl (fun x d => x * 10 + d) a =
      a * 10 ^ L.length + Nat.ofDigits 10 L := by
  induction L generalizing a with
  | nil => simp
  | cons d L ih =>
    simp only [List.reverse_cons, List.foldl_append, List.foldl_cons,
      List.foldl_nil, ih, Nat.ofDigits_cons, List.length_cons]
    ring

theorem foldl_numStr (n : ℕ) :
    (numStr n).foldl (fun x d => x * 10 + d) 0 = n := by
  unfold numStr
  by_cases h : n = 0
  · simp [h]
  · simp only [h, if_false]
    have := foldl_digit_reverse (Nat.digits 10 n) 0
    simpa [Nat.ofDigits_digits] using this

theorem foldl_replicate_zero (k : ℕ) :
    (List.replicate k 0).foldl (fun x d => x * 10 + d) 0 = 0 := by
  induction k with
  | zero => rfl
  | succ k ih => simpa [List.replicate_succ] using ih

theorem foldl_pad2 (n : ℕ) :
    (pad2 n).foldl (fun x d => x * 10 + d) 0 = n := by
  unfold pad2
  rw [List.foldl_append, foldl_replicate_zero, foldl_numStr]

theorem numStr_length_pos (n : ℕ) : 1 ≤ (numStr n).length := by
  unfold numStr
  by_cases h : n = 0
  · simp [h]
  · simp only [h, if_false, List.length_reverse]
    exact List.length_pos.mpr (Nat.digits_ne_nil_iff_ne_zero.mpr h)

theorem numStr_length_le_two {n : ℕ} (h : n < 100) : (numStr n).length ≤ 2 := by
  unfold numStr
  by_cases h0 : n = 0
  · simp [h0]
  · simp only [h0, if_false, List.length_reverse]
    rw [Nat.digits_len 10 n (by norm_num) h0]
    have : Nat.log 10 n < 2 := Nat.log_lt_of_lt_pow h0 (by omega)
    omega

theorem pad2_length_eq_two {n : ℕ} (h : n < 100) : (pad2 n).length = 2 := by
  unfold pad2
  have h1 := numStr_length_pos n
  have h2 := numStr_length_le_two h
  simp only [List.length_append, List.length_replicate]
  omega

theorem pad2_length_ge_two (n : ℕ) : 2 ≤ (pad2 n).length := by
  unfold pad2
  have h1 := numStr_length_pos n
  simp only [List.length_append, List.length_replicate]
  omega

theorem digitVals_map (ds : List ℕ) : digitVals (ds.map TChar.digit) = some ds := by
  induction ds with
  | nil => rfl
  | cons d ds ih => simp [digitVals, ih]

theorem parseU32_pad2 {n : ℕ} (h : n ≤ TMAX) :
    parseU32 ((pad2 n).map TChar.digit) = some n := by
  unfold parseU32
  rw [digitVals_map]
  have hne : (pad2 n).isEmpty = false := by
    have := pad2_length_ge_two n
    cases hp : pad2 n
    · rw [hp] at this; simp at this
    · rfl
  simp [hne, foldl_pad2, h]

theorem splitOnColon_digits (ds : List ℕ) :
    splitOnColon (ds.map TChar.digit) = [ds.map TChar.digit] := by
  induction ds with
  | nil => rfl
  | cons d ds ih => simp [splitOnColon, ih]

theorem splitOnColon_append (ds : List ℕ) (rest : List TChar) :
    splitOnColon (ds.map TChar.digit ++ TChar.colon :: rest) =
      ds.map TChar.digit :: splitOnColon rest := by
  induction ds with
  | nil => rfl
  | cons d ds ih => simp [splitOnColon, ih]

/-- C8: for every `u32` timestamp `t`, `parse_time (get_time_str t) = Ok t`;
the round trip is not limited to `t < 24 * 3600` because `get_time_str`
emits the full hour count without wrapping. -/
theorem c8_parse_format_roundtrip (t : ℕ) (ht : t ≤ TMAX) :
    parse_time (get_time_str t) = Except.ok t := by
  have hU : U32MOD = 4294967296 := by norm_num [U32MOD]
  have hT : TMAX = 4294967295 := by norm_num [TMAX, U32MOD]
  have hm : t % 3600 / 60 < 100 := by omega
  have hs : t % 60 < 100 := by omega
  have hh : t / 3600 ≤ TMAX := le_trans (Nat.div_le_self t 3600) ht
  have hmT : t % 3600 / 60 ≤ TMAX := by omega
  have hsT : t % 60 ≤ TMAX := by omega
  have hlen : ¬((get_time_str t).length < 7) := by
    unfold get_time_str
    have h1 := pad2_length_ge_two (t / 3600)
    have h2 := pad2_length_ge_two (t % 3600 / 60)
    have h3 := pad2_length_ge_two (t % 60)
    simp only [List.length_append, List.length_cons, List.length_map]
    omega
  unfold parse_time
  rw [if_neg hlen]
  unfold get_time_str
  rw [splitOnColon_append, splitOnColon_append, splitOnColon_digits]
  have hml : ((pad2 (t % 3600 / 60)).map TChar.digit).length = 2 := by
    simpa using pad2_length_eq_two hm
  have hsl : ((pad2 (t % 60)).map TChar.digit).length = 2 := by
    simpa using pad2_length_eq_two hs
  simp only [parseU32_pad2 hh, parseU32_pad2 hmT, parseU32_pad2 hsT, hml, hsl]
  rw [if_neg (by omega)]
  rw [hU]
  congr 1
  omega

theorem c8_parse_format_roundtrip_witness :
    (30600 ≤ TMAX) ∧ parse_time (get_time_str 30600) = Except.ok 30600 :=
  ⟨by decide, c8_parse_format_roundtrip 30600 (by decide)⟩

/-! ## C2 and C5: the CSA transfer-time lookup -/

/-- C2 (code evaluation at the failing input): in `netC2` the single
connection departs the query origin (stop 0) exactly at the query time, so
under the spec's rule — transfer time of the *departure* stop, and 0 at the
origin — its legal boarding time `τ[0] + 0 = 0 ≤ 0` makes the trip
boardable.  The code instead adds the transfer time of the connection's
*arrival* stop (`transfer_times[1] = 5`), leaves the trip unreachable, and
the query returns `NoJourneyFound`. -/
theorem c2_transfer_time_eval :
    satAdd ((csaTau netC2 0 0 1).getD 0 TauEntry.dflt).time 0 ≤ 0
      ∧ (csaSweep netC2 0 0 1).trip_reachable = [false]
      ∧ csa_query netC2 0 0 1 = some (Except.error JourneyError.NoJourneyFound) := by
  decide

/-- C5 (violation at the failing input): the journey returned on `netC5`
starts at the query origin and ends at the destination, yet between its two
legs (on different trips) the boarding at stop 1 happens only 5 seconds
after the arrival there, below that stop's 7-second transfer time — a
consequence of the reachability check reading the transfer time of the
connection's arrival stop. -/
theorem c5_transfer_violation :
    csa_query netC5 0 0 2 = some (Except.ok journeyC5)
      ∧ (journeyC5.legs.getD 0 dflLeg).boarded_stop = 0
      ∧ (journeyC5.legs.getD 1 dflLeg).arrival_stop = 2
      ∧ (journeyC5.legs.getD 0 dflLeg).trip ≠ (journeyC5.legs.getD 1 dflLeg).trip
      ∧ (journeyC5.legs.getD 0 dflLeg).arrival_time ≤
          (journeyC5.legs.getD 1 dflLeg).boarded_time
      ∧ (journeyC5.legs.getD 1 dflLeg).boarded_time -
            (journeyC5.legs.getD 0 dflLeg).arrival_time <
          netC5.transfer_times.getD (journeyC5.legs.getD 0 dflLeg).arrival_stop 0 := by
  decide

/-! ## C6: `NoJourneyFound` exactly when the end stop has no boarding -/

theorem fromTauGo_ne_nojourney (tau : List TauEntry) (net : Network) (s : ℕ) :
    ∀ (remaining : ℕ) (curOpt : Option ℕ) (legs : List Leg)
      (lastB : Option Boarding),
        fromTauGo tau net s curOpt legs lastB remaining ≠
          some (Except.error JourneyError.NoJourneyFound) := by
  intro remaining
  induction remaining with
  | zero =>
    intro curOpt legs lastB
    cases curOpt with
    | none => simp [fromTauGo]
    | some cur =>
      rw [fromTauGo]
      split
      · simp
      · simp
  | succ k ih =>
    intro curOpt legs lastB
    cases curOpt with
    | none => simp [fromTauGo]
    | some cur =>
      rw [fromTauGo]
      split
      · simp
      · cases htau : tau.get? cur with
        | none => simp
        | some current_tau =>
          cases hb : current_tau.boarding with
          | none =>
            simp only [hb]
            simpa using ih none legs lastB
          | some boarded_leg =>
            cases hleg : mkTauLeg net boarded_leg cur current_tau.time lastB with
            | none => simp [hb, hleg]
            | some leg =>
              simp only [hb, hleg]
              simpa using ih (some boarded_leg.boarded_stop) (legs.concat leg)
                (some boarded_leg)

theorem processConn_tau_length (start e : ℕ) (tts : List ℕ) (st : SweepState)
    (c : Connection) :
    (processConn start e tts st c).tau.length = st.tau.length := by
  simp only [processConn]
  repeat' split
  all_goals simp [List.length_set]

theorem csaLoop_tau_length (start e : ℕ) (tts : List ℕ) :
    ∀ (conns : List Connection) (st : SweepState),
      (csaLoop start e tts conns st).tau.length = st.tau.length := by
  intro conns
  induction conns with
  | nil => intro st; rfl
  | cons c rest ih =>
    intro st
    rw [csaLoop]
    split
    · rfl
    · rw [ih]
      exact processConn_tau_length start e tts st c

theorem csaTau_length (net : Network) (start start_time e : ℕ) :
    (csaTau net start start_time e).length = net.numStops := by
  unfold csaTau csaSweep
  rw [csaLoop_tau_length]
  simp

/-- C6: for `start ≠ end` (and an in-bounds end stop), `csa_query` returns
`Err(NoJourneyFound)` iff after the connection sweep the `τ` entry of the end
stop carries no `Boarding`. -/
theorem c6_no_journey_found_iff (net : Network) (s t e : ℕ) (hse : s ≠ e)
    (he : e < net.numStops) :
    (csa_query net s t e = some (Except.error JourneyError.NoJourneyFound) ↔
      ((csaTau net s t e).getD e TauEntry.dflt).boarding = none) := by
  unfold csa_query
  rw [if_neg hse]
  unfold from_tau
  have hlen : e < (csaTau net s t e).length := by rw [csaTau_length]; exact he
  have hgd : (csaTau net s t e).getD e TauEntry.dflt = (csaTau net s t e)[e] := by
    simp [List.getD_eq_getElem?_getD, List.getElem?_eq_getElem hlen]
  rw [hgd]
  simp only [List.get?_eq_get hlen, List.get_eq_getElem]
  by_cases hb : (csaTau net s t e)[e].boarding = none
  · rw [if_pos (by simp [hb])]
    simp [hb]
  · rw [if_neg (by simpa [Option.isNone_iff_eq_none] using hb)]
    constructor
    · intro h
      cases hr : fromTauGo (csaTau net s t e) net s (some e) [] none 100 with
      | none => simp only [hr] at h; simp at h
      | some r =>
        cases r with
        | error err =>
          simp only [hr] at h
          simp only [Option.some.injEq, Except.error.injEq] at h
          subst h
          exact absurd hr (fromTauGo_ne_nojourney _ _ _ 100 _ _ _)
        | ok legs => simp only [hr] at h; simp at h
    · intro h
      exact absurd h hb

theorem c6_no_journey_found_iff_witness :
    (0 ≠ 1) ∧ 1 < netC2.numStops ∧
      (csa_query netC2 0 0 1 = some (Except.error JourneyError.NoJourneyFound) ↔
        ((csaTau netC2 0 0 1).getD 1 TauEntry.dflt).boarding = none) :=
  ⟨by decide, by decide, c6_no_journey_found_iff netC2 0 0 1 (by decide) (by decide)⟩

/-! ## C7: journey reconstruction is total and bounded -/

theorem fromTauGo_ok_length (tau : List TauEntry) (net : Network) (s : ℕ) :
    ∀ (remaining : ℕ) (curOpt : Option ℕ) (legs : List Leg)
      (lastB : Option Boarding) (out : List Leg),
      fromTauGo tau net s curOpt legs lastB remaining = some (Except.ok out) →
        out.length ≤ legs.length + remaining := by
  intro remaining
  induction remaining with
  | zero =>
    intro curOpt legs lastB out h
    cases curOpt with
    | none =>
      simp only [fromTauGo, Option.some.injEq, Except.ok.injEq] at h
      subst h
      omega
    | some cur =>
      rw [fromTauGo] at h
      split at h
      · simp only [Option.some.injEq, Except.ok.injEq] at h
        subst h
        omega
      · simp at h
  | succ k ih =>
    intro curOpt legs lastB out h
    cases curOpt with
    | none =>
      simp only [fromTauGo, Option.some.injEq, Except.ok.injEq] at h
      subst h
      omega
    | some cur =>
      rw [fromTauGo] at h
      split at h
      · simp only [Option.some.injEq, Except.ok.injEq] at h
        subst h
        omega
      · cases htau : tau.get? cur with
        | none => simp only [htau] at h; simp at h
        | some current_tau =>
          simp only [htau] at h
          cases hb : current_tau.boarding with
          | none =>
            simp only [hb] at h
            have := ih none legs lastB out h
            omega
          | some boarded_leg =>
            simp only [hb] at h
            cases hleg : mkTauLeg net boarded_leg cur current_tau.time lastB with
            | none => simp only [hleg] at h; simp at h
            | some leg =>
              simp only [hleg] at h
              have := ih (some boarded_leg.boarded_stop) (legs.concat leg)
                (some boarded_leg) out h
              simp [List.length_concat] at this
              omega

theorem fromTauBagGo_ok_length (tau : List (List MC.Label)) (net : Network)
    (s : ℕ) (util : MC.Label → ℕ → ℚ) (start_time : ℕ) :
    ∀ (remaining : ℕ) (curOpt : Option ℕ) (legs : List Leg)
      (nextB : Option Boarding) (out : List Leg),
      fromTauBagGo tau net s util start_time curOpt legs nextB remaining =
          some (Except.ok out) →
        out.length ≤ legs.length + remaining := by
  intro remaining
  induction remaining with
  | zero =>
    intro curOpt legs nextB out h
    cases curOpt with
    | none =>
      simp only [fromTauBagGo, Option.some.injEq, Except.ok.injEq] at h
      subst h
      omega
    | some cur =>
      rw [fromTauBagGo] at h
      split at h
      · simp only [Option.some.injEq, Except.ok.injEq] at h
        subst h
        omega
      · simp only [] at h
        cases htau : tau.get? cur with
        | none => simp only [htau] at h; simp at h
        | some bag =>
          simp only [htau] at h
          cases hbl : bestLabel util
              ((nextB.map (fun b => b.boarded_time)).getD TMAX) bag start_time with
          | none => simp only [hbl] at h; simp at h
          | some current_tau =>
            simp only [hbl] at h
            cases hb : current_tau.boarding with
            | none => simp only [hb] at h; simp at h
            | some boarded_leg =>
              simp only [hb] at h
              cases hleg : mkTauLeg net boarded_leg cur current_tau.arrival_time
                  nextB with
              | none => simp only [hleg] at h; simp at h
              | some leg => simp only [hleg] at h; simp at h
  | succ k ih =>
    intro curOpt legs nextB out h
    cases curOpt with
    | none =>
      simp only [fromTauBagGo, Option.some.injEq, Except.ok.injEq] at h
      subst h
      omega
    | some cur =>
      rw [fromTauBagGo] at h
      split at h
      · simp only [Option.some.injEq, Except.ok.injEq] at h
        subst h
        omega
      · simp only [] at h
        cases htau : tau.get? cur with
        | none => simp only [htau] at h; simp at h
        | some bag =>
          simp only [htau] at h
          cases hbl : bestLabel util
              ((nextB.map (fun b => b.boarded_time)).getD TMAX) bag start_time with
          | none =>
            simp only [hbl] at h
            have := ih (some cur) legs nextB out h
            omega
          | some current_tau =>
            simp only [hbl] at h
            cases hb : current_tau.boarding with
            | none =>
              simp only [hb] at h
              have := ih none legs nextB out h
              omega
            | some boarded_leg =>
              simp only [hb] at h
              cases hleg : mkTauLeg net boarded_leg cur current_tau.arrival_time
                  nextB with
              | none => simp only [hleg] at h; simp at h
              | some leg =>
                simp only [hleg] at h
                have := ih (some boarded_leg.boarded_stop) (legs.concat leg)
                  (some boarded_leg) out h
                simp [List.length_concat] at this
                omega

/-- C7: reconstruction is total (the embedding is a total function mirroring
the source's bounded counter): every `Ok` journey from `from_tau` or
`from_tau_bag` has at most 100 legs, and on parent-pointer chains that never
reach the start (e.g. the cyclic `tauCyc` and the stalling `tauBagCyc`)
both functions return `Err(InfiniteLoop)` instead of diverging. -/
theorem c7_reconstruction_bounded :
    (∀ (tau : List TauEntry) (net : Network) (s e : ℕ) (j : Journey),
        from_tau tau net s e = some (Except.ok j) → j.legs.length ≤ 100)
      ∧ (∀ (tau : List (List MC.Label)) (net : Network) (s e : ℕ)
            (util : MC.Label → ℕ → ℚ) (j : Journey),
          from_tau_bag tau net s e util = some (Except.ok j) →
            j.legs.length ≤ 100)
      ∧ from_tau tauCyc netC7 0 1 = some (Except.error JourneyError.InfiniteLoop)
      ∧ from_tau_bag tauBagCyc netC7 0 1 utilDefault =
          some (Except.error JourneyError.InfiniteLoop) := by
  refine ⟨?_, ?_, by decide, by decide⟩
  · intro tau net s e j h
    unfold from_tau at h
    cases hget : tau.get? e with
    | none => simp only [hget] at h; simp at h
    | some te =>
      simp only [hget] at h
      cases hb : te.boarding with
      | none => simp only [hb] at h; simp at h
      | some b =>
        simp only [hb] at h
        rw [if_neg (by simp)] at h
        cases hr : fromTauGo tau net s (some e) [] none 100 with
        | none => simp only [hr] at h; simp at h
        | some r =>
          cases r with
          | error err => simp only [hr] at h; simp at h
          | ok legs =>
            simp only [hr] at h
            simp only [Option.some.injEq, Except.ok.injEq] at h
            subst h
            have := fromTauGo_ok_length tau net s 100 (some e) [] none legs hr
            simpa [Journey.mk_from] using this
  · intro tau net s e util j h
    unfold from_tau_bag at h
    cases hget : tau.get? e with
    | none => simp only [hget] at h; simp at h
    | some endBag =>
      simp only [hget] at h
      split at h
      · simp at h
      · cases hgs : tau.get? s with
        | none => simp only [hgs] at h; simp at h
        | some startBag =>
          simp only [hgs] at h
          cases hhd : startBag.head? with
          | none => simp only [hhd] at h; simp at h
          | some l0 =>
            simp only [hhd] at h
            cases hbest : bestLabel util TMAX endBag l0.arrival_time with
            | none => simp only [hbest] at h; simp at h
            | some best =>
              simp only [hbest] at h
              cases hr : fromTauBagGo tau net s util l0.arrival_time (some e)
                  [] none 100 with
              | none => simp only [hr] at h; simp at h
              | some r =>
                cases r with
                | error err => simp only [hr] at h; simp at h
                | ok legs =>
                  simp only [hr] at h
                  simp only [Option.some.injEq, Except.ok.injEq] at h
                  subst h
                  have := fromTauBagGo_ok_length tau net s util l0.arrival_time
                    100 (some e) [] none legs hr
                  simpa [Journey.mk_from] using this

theorem c7_reconstruction_bounded_witness :
    (from_tau tauW netW 0 1 = some (Except.ok journeyW)
        ∧ journeyW.legs.length ≤ 100)
      ∧ from_tau_bag tauBagW netW 0 1 utilDefault = some (Except.ok journeyBagW)
      ∧ journeyBagW.legs.length ≤ 100 :=
  ⟨⟨by decide, c7_reconstruction_bounded.1 tauW netW 0 1 journeyW (by decide)⟩,
   by decide,
   c7_reconstruction_bounded.2.1 tauBagW netW 0 1 utilDefault journeyBagW
     (by decide)⟩

/-! ## C3 and C4: the bag algebra -/

namespace MC

theorem partitionIdx_some (new : Label) :
    ∀ (l : List Label) (p : ℕ), partitionIdx new l = some p →
      p < l.length ∧ (∀ x ∈ l.take p, x.arrival_time ≤ new.arrival_time) ∧
        new.arrival_time < (l.getD p dfl).arrival_time := by
  intro l
  induction l with
  | nil => intro p hp; simp [partitionIdx] at hp
  | cons a l ih =>
    intro p hp
    by_cases h : new.arrival_time < a.arrival_time
    · simp only [partitionIdx, if_pos h, Option.some.injEq] at hp
      subst hp
      exact ⟨by simp, by simp, by simpa using h⟩
    · simp only [partitionIdx, if_neg h] at hp
      cases hq : partitionIdx new l with
      | none => rw [hq] at hp; simp at hp
      | some q =>
        rw [hq] at hp
        simp only [Option.map_some', Option.some.injEq] at hp
        subst hp
        obtain ⟨h1, h2, h3⟩ := ih q hq
        refine ⟨by simpa using h1, ?_, by simpa using h3⟩
        intro x hx
        rw [List.take_succ_cons] at hx
        rcases List.mem_cons.mp hx with rfl | hx'
        · omega
        · exact h2 x hx'

theorem partitionIdx_none (new : Label) :
    ∀ (l : List Label), partitionIdx new l = none →
      ∀ x ∈ l, x.arrival_time ≤ new.arrival_time := by
  intro l
  induction l with
  | nil => intro _ x hx; simp at hx
  | cons a l ih =>
    intro hp x hx
    by_cases h : new.arrival_time < a.arrival_time
    · simp [partitionIdx, h] at hp
    · simp only [partitionIdx, if_neg h, Option.map_eq_none'] at hp
      rcases List.mem_cons.mp hx with rfl | hx'
      · omega
      · exact ih hp x hx'

theorem not_any_cost {ls : List Label} {new : Label}
    (h : (ls.any fun l => decide (l.cost ≤ new.cost)) = false) :
    ∀ x ∈ ls, new.cost < x.cost := by
  intro x hx
  have hx' := (List.any_eq_false.mp h) x hx
  simp only [decide_eq_true_eq] at hx'
  exact lt_of_not_le hx'

end MC

theorem getD_append_cons {α} (xs : List α) (a : α) (ys : List α) (d : α) :
    (xs ++ a :: ys).getD xs.length d = a := by
  induction xs with
  | nil => rfl
  | cons x xs ih => simpa using ih

theorem set_append_cons {α} (xs : List α) (a : α) (ys : List α) (b : α) :
    (xs ++ a :: ys).set xs.length b = xs ++ b :: ys := by
  induction xs with
  | nil => rfl
  | cons x xs ih => simp [List.set_cons_succ, ih]

theorem insertIdx_append_cons {α} (xs ys : List α) (a : α) :
    (xs ++ ys).insertIdx xs.length a = xs ++ a :: ys := by
  induction xs with
  | nil => simp
  | cons x xs ih => simp [List.insertIdx_succ_cons, ih]

theorem getD_set_self {α} (l : List α) (i : ℕ) (a d : α) (h : i < l.length) :
    (l.set i a).getD i d = a := by
  induction l generalizing i with
  | nil => simp at h
  | cons x l ih =>
    cases i with
    | zero => rfl
    | succ i => simpa using ih i (by simpa using h)

theorem getD_mem {α} (l : List α) (i : ℕ) (d : α) (h : i < l.length) :
    l.getD i d ∈ l := by
  induction l generalizing i with
  | nil => simp at h
  | cons x l ih =>
    cases i with
    | zero => simp
    | succ i => exact List.mem_cons_of_mem x (ih i (by simpa using h))

theorem take_succ_getD {α} (l : List α) (i : ℕ) (d : α) (h : i < l.length) :
    l.take (i + 1) = l.take i ++ [l.getD i d] := by
  induction l generalizing i with
  | nil => simp at h
  | cons x l ih =>
    cases i with
    | zero => rfl
    | succ i =>
      rw [List.take_succ_cons, List.take_succ_cons, ih i (by simpa using h)]
      rfl

theorem getD_take_of_lt {α} (l : List α) (i j : ℕ) (d : α) (hj : j < i) :
    (l.take i).getD j d = l.getD j d := by
  induction l generalizing i j with
  | nil => simp
  | cons x l ih =>
    cases i with
    | zero => omega
    | succ i =>
      cases j with
      | zero => rfl
      | succ j => simpa using ih i j (by omega)

theorem dropLast_append_ne {α} (xs : List α) :
    ∀ (ys : List α), ys ≠ [] → (xs ++ ys).dropLast = xs ++ ys.dropLast := by
  induction xs with
  | nil => intro ys h; simp
  | cons x xs ih =>
    intro ys h
    have hne : xs ++ ys ≠ [] := by
      intro hc
      exact h (List.append_eq_nil.mp hc).2
    obtain ⟨z, zs, hzz⟩ := List.exists_cons_of_ne_nil hne
    rw [List.cons_append, hzz, List.dropLast_cons₂, ← hzz, ih ys h]
    simp

theorem mem_take_getElem {α} (l : List α) (i : ℕ) (x : α) (hx : x ∈ l.take i) :
    ∃ j, ∃ hj : j < l.length, j < i ∧ l[j] = x := by
  rw [List.mem_iff_getElem] at hx
  obtain ⟨j, hj, hval⟩ := hx
  have hjlen : j < l.length := by
    have := hj
    simp [List.length_take] at this
    omega
  have hji : j < i := by
    have := hj
    simp [List.length_take] at this
    omega
  refine ⟨j, hjlen, hji, ?_⟩
  rw [List.getElem_take] at hval
  exact hval

theorem mem_drop_getElem {α} (l : List α) (i : ℕ) (x : α) (hx : x ∈ l.drop i) :
    ∃ j, ∃ hj : j < l.length, i ≤ j ∧ l[j] = x := by
  rw [List.mem_iff_getElem] at hx
  obtain ⟨j, hj, hval⟩ := hx
  have hjlen : i + j < l.length := by
    have := hj
    simp [List.length_drop] at this
    omega
  refine ⟨i + j, hjlen, by omega, ?_⟩
  rw [List.getElem_drop] at hval
  exact hval

theorem getD_eq_getElem_of_lt {α} (l : List α) (i : ℕ) (d : α)
    (h : i < l.length) : l.getD i d = l[i] := by
  rw [List.getD_eq_getElem?_getD, List.getElem?_eq_getElem h]
  rfl

theorem getElem_mem_take {α} (l : List α) (i j : ℕ) (hj : j < l.length)
    (hji : j < i) : l[j] ∈ l.take i := by
  rw [List.mem_iff_getElem]
  refine ⟨j, by simp [List.length_take]; omega, ?_⟩
  exact List.getElem_take l

theorem getLastD_eq_getD {α} (l : List α) (d : α) (h : l ≠ []) :
    l.getLastD d = l.getD (l.length - 1) d := by
  have hlt : l.length - 1 < l.length := by
    cases l with
    | nil => exact absurd rfl h
    | cons x xs => simp
  rw [List.getLastD_eq_getLast?, List.getLast?_eq_getElem?,
    List.getElem?_eq_getElem hlt, getD_eq_getElem_of_lt _ _ _ hlt]
  rfl

namespace MC

theorem pairwise_take_rel {bag : List Label} (hPW : bag.Pairwise Rlab) (i : ℕ)
    (hi : i < bag.length) :
    ∀ x ∈ bag.take i, Rlab x (bag.getD i dfl) := by
  intro x hx
  obtain ⟨j, hjlen, hji, rfl⟩ := mem_take_getElem bag i x hx
  rw [getD_eq_getElem_of_lt bag i dfl hi]
  exact List.pairwise_iff_getElem.mp hPW j i hjlen hi hji

theorem drop_arr_gt {bag : List Label} {new : Label} (hPW : bag.Pairwise Rlab)
    {p : ℕ} (hp : p < bag.length)
    (hgt : new.arrival_time < (bag.getD p dfl).arrival_time) :
    ∀ z ∈ bag.drop p, new.arrival_time < z.arrival_time := by
  intro z hz
  obtain ⟨j, hjlen, hpj, rfl⟩ := mem_drop_getElem bag p z hz
  rw [getD_eq_getElem_of_lt bag p dfl hp] at hgt
  rcases eq_or_lt_of_le hpj with rfl | hlt
  · exact hgt
  · exact lt_trans hgt (List.pairwise_iff_getElem.mp hPW p j hp hjlen hlt).1

theorem arr_le_last {bag : List Label} (hPW : bag.Pairwise Rlab)
    (h : bag ≠ []) :
    ∀ x ∈ bag,
      x.arrival_time ≤ (bag.getD (bag.length - 1) dfl).arrival_time := by
  intro x hx
  have hlt : bag.length - 1 < bag.length := by
    cases bag with
    | nil => exact absurd rfl h
    | cons y ys => simp
  obtain ⟨j, hj, rfl⟩ := List.mem_iff_getElem.mp hx
  rw [getD_eq_getElem_of_lt bag _ dfl hlt]
  rcases Nat.lt_or_ge j (bag.length - 1) with hlt2 | hge
  · exact le_of_lt (List.pairwise_iff_getElem.mp hPW j _ hj hlt hlt2).1
  · have : j = bag.length - 1 := by omega
    subst this
    exact le_refl _

theorem take_arr_lt_of_ne {bag : List Label} {new : Label}
    (hPW : bag.Pairwise Rlab) {p : ℕ} (hple : p ≤ bag.length)
    (hle : ∀ x ∈ bag.take p, x.arrival_time ≤ new.arrival_time)
    (hne : p = 0 ∨ (bag.getD (p - 1) dfl).arrival_time ≠ new.arrival_time) :
    ∀ x ∈ bag.take p, x.arrival_time < new.arrival_time := by
  intro x hx
  rcases hne with rfl | hne
  · simp at hx
  · obtain ⟨j, hjlen, hjp, rfl⟩ := mem_take_getElem bag p x hx
    have hp1 : p - 1 < bag.length := by omega
    rcases Nat.lt_or_ge j (p - 1) with hj | hj
    · have hrel := List.pairwise_iff_getElem.mp hPW j (p - 1) hjlen hp1 hj
      have hprevmem : bag[p - 1] ∈ bag.take p := getElem_mem_take bag p (p - 1) hp1 (by omega)
      have hprevle := hle _ hprevmem
      rw [getD_eq_getElem_of_lt bag (p - 1) dfl hp1] at hne
      have harr := hrel.1
      omega
    · have hj' : j = p - 1 := by omega
      subst hj'
      rw [getD_eq_getElem_of_lt bag (p - 1) dfl hp1] at hne
      exact lt_of_le_of_ne (hle _ hx) hne

theorem pairwise_insert_middle {P S : List Label} {new : Label}
    (hPpw : P.Pairwise Rlab) (hSpw : S.Pairwise Rlab)
    (hP : ∀ x ∈ P, x.arrival_time < new.arrival_time ∧ new.cost < x.cost)
    (hS : ∀ z ∈ S, new.arrival_time < z.arrival_time ∧ z.cost < new.cost) :
    (P ++ new :: S).Pairwise Rlab := by
  rw [List.pairwise_append]
  refine ⟨hPpw, ?_, ?_⟩
  · rw [List.pairwise_cons]
    exact ⟨fun z hz => ⟨(hS z hz).1, (hS z hz).2⟩, hSpw⟩
  · intro a ha b hb
    rcases List.mem_cons.mp hb with rfl | hb'
    · exact ⟨(hP a ha).1, (hP a ha).2⟩
    · exact ⟨lt_trans (hP a ha).1 (hS b hb').1,
        lt_trans (hS b hb').2 (hP a ha).2⟩

theorem bagAdd_some_inv {N : ℕ} (hN : 1 ≤ N) (bag : List Label) (new : Label)
    (hPW : bag.Pairwise Rlab) (hlen : bag.length ≤ N) :
    ∃ bag1 r, bagAdd N bag new = some (bag1, r) ∧
      bag1.Pairwise Rlab ∧ bag1.length ≤ N := by
  by_cases hE0 : bag.isEmpty
  · have hN0 : N ≠ 0 := by omega
    refine ⟨[new], true, by simp [bagAdd, hE0, hN0], by simp, by simpa using hN⟩
  · have hE : bag.isEmpty = false := by rwa [Bool.not_eq_true] at hE0
    have hne : bag ≠ [] := by simpa using hE
    cases hpart : partitionIdx new bag with
    | some p =>
      obtain ⟨hplt, htakele, hgetp⟩ := partitionIdx_some new bag p hpart
      have htklen : (bag.take p).length = p := by
        simp [List.length_take]
        omega
      by_cases hdomT : ((bag.take p).any fun l => decide (l.cost ≤ new.cost)) = true
      · exact ⟨bag, false, by simp [bagAdd, hE, hpart, hdomT], hPW, hlen⟩
      · have hdom : ((bag.take p).any fun l => decide (l.cost ≤ new.cost)) = false := by
          rwa [Bool.not_eq_true] at hdomT
        have hcost := not_any_cost hdom
        have hSsub : ((bag.drop p).filter fun l => decide (l.cost < new.cost)).Sublist
            (bag.drop p) := List.filter_sublist _
        have hSpw : ((bag.drop p).filter fun l => decide (l.cost < new.cost)).Pairwise
            Rlab := List.Pairwise.sublist (hSsub.trans (List.drop_sublist _ _)) hPW
        have hScost : ∀ z ∈ (bag.drop p).filter fun l => decide (l.cost < new.cost),
            z.cost < new.cost := by
          intro z hz
          have := (List.mem_filter.mp hz).2
          simpa using this
        have hSarr : ∀ z ∈ (bag.drop p).filter fun l => decide (l.cost < new.cost),
            new.arrival_time < z.arrival_time := fun z hz =>
          drop_arr_gt hPW hplt hgetp z (hSsub.subset hz)
        have hSlen : ((bag.drop p).filter fun l => decide (l.cost < new.cost)).length ≤
            (bag.drop p).length := hSsub.length_le
        have hlab1len : (bag.take p ++
            (bag.drop p).filter fun l => decide (l.cost < new.cost)).length ≤
              bag.length := by
          rw [List.length_append, htklen]
          have := List.length_drop p bag
          omega
        have hprev_eq : p ≠ 0 →
            ((bag.take p ++ (bag.drop p).filter fun l => decide (l.cost < new.cost)).getD
              (p - 1) dfl) = bag.getD (p - 1) dfl := by
          intro hp0
          rw [List.getD_append _ _ _ _ (by rw [htklen]; omega),
            getD_take_of_lt _ _ _ _ (by omega)]
        by_cases hrep : p ≠ 0 ∧
            ((bag.take p ++ (bag.drop p).filter fun l => decide (l.cost < new.cost)).getD
              (p - 1) dfl).arrival_time = new.arrival_time
        · -- equal-arrival replacement branch
          have hp0 := hrep.1
          have hp1lt : p - 1 < bag.length := by omega
          have hprevmem : bag.getD (p - 1) dfl ∈ bag.take p := by
            rw [getD_eq_getElem_of_lt _ _ _ hp1lt]
            exact getElem_mem_take bag p (p - 1) hp1lt (by omega)
          have hprevc : new.cost <
              ((bag.take p ++ (bag.drop p).filter fun l =>
                decide (l.cost < new.cost)).getD (p - 1) dfl).cost := by
            rw [hprev_eq hp0]
            exact hcost _ hprevmem
          refine ⟨(bag.take p ++
              (bag.drop p).filter fun l => decide (l.cost < new.cost)).set
                (p - 1) new, true, ?_, ?_, ?_⟩
          · simp only [bagAdd, hE, Bool.false_eq_true, if_false, hpart,
              Option.isNone_some, Option.getD_some]
            rw [if_neg (by simp [hdom]), if_pos hrep, if_pos hprevc]
          · -- the new label list is take (p-1) ++ new :: filtered suffix
            have hdec : bag.take p = bag.take (p - 1) ++ [bag.getD (p - 1) dfl] := by
              have hp' : p - 1 + 1 = p := by omega
              rw [← hp', take_succ_getD bag (p - 1) dfl (by omega)]
              simp [hp']
            have htk1len : (bag.take (p - 1)).length = p - 1 := by
              simp [List.length_take]
              omega
            have hset := set_append_cons (bag.take (p - 1)) (bag.getD (p - 1) dfl)
              ((bag.drop p).filter fun l => decide (l.cost < new.cost)) new
            rw [htk1len] at hset
            rw [hdec, List.append_assoc, List.singleton_append, hset]
            apply pairwise_insert_middle
            · exact List.Pairwise.sublist (List.take_sublist _ _) hPW
            · exact hSpw
            · intro x hx
              have hmem_p : x ∈ bag.take p := by
                rw [hdec]
                exact List.mem_append_left _ hx
              refine ⟨?_, hcost x hmem_p⟩
              have hrel := pairwise_take_rel hPW (p - 1) (by omega) x hx
              have harr := hrel.1
              have hparr := hrep.2
              rw [hprev_eq hp0] at hparr
              omega
            · intro z hz
              exact ⟨hSarr z hz, hScost z hz⟩
          · rw [List.length_set]
            exact le_trans hlab1len hlen
        · -- no replacement: insert (popping the last label when full)
          have hPlt : ∀ x ∈ bag.take p, x.arrival_time < new.arrival_time := by
            apply take_arr_lt_of_ne hPW (le_of_lt hplt) htakele
            by_cases hp0 : p = 0
            · exact Or.inl hp0
            · refine Or.inr ?_
              intro hcontra
              exact hrep ⟨hp0, by rw [hprev_eq hp0]; exact hcontra⟩
          by_cases hfull : (bag.take p ++
              (bag.drop p).filter fun l => decide (l.cost < new.cost)).length = N
          · -- full: pop the last label, then insert
            have hbaglen : bag.length = N := by
              have := hlab1len
              omega
            have hSlenN : ((bag.drop p).filter fun l =>
                decide (l.cost < new.cost)).length = N - p := by
              rw [List.length_append, htklen] at hfull
              omega
            have hSne : ((bag.drop p).filter fun l => decide (l.cost < new.cost)) ≠ [] := by
              intro hc
              rw [hc] at hSlenN
              simp at hSlenN
              omega
            refine ⟨(bag.take p ++
                ((bag.drop p).filter fun l => decide (l.cost < new.cost)).dropLast).insertIdx
                  p new, true, ?_, ?_, ?_⟩
            · simp only [bagAdd, hE, Bool.false_eq_true, if_false, hpart,
                Option.isNone_some, Option.getD_some]
              rw [if_neg (by simp [hdom]), if_neg hrep, if_pos hfull,
                dropLast_append_ne _ _ hSne]
            · have hins := insertIdx_append_cons (bag.take p)
                (((bag.drop p).filter fun l => decide (l.cost < new.cost)).dropLast) new
              rw [htklen] at hins
              rw [hins]
              apply pairwise_insert_middle
              · exact List.Pairwise.sublist (List.take_sublist _ _) hPW
              · exact List.Pairwise.sublist (List.dropLast_sublist _) hSpw
              · exact fun x hx => ⟨hPlt x hx, hcost x hx⟩
              · intro z hz
                have hz' := (List.dropLast_sublist _).subset hz
                exact ⟨hSarr z hz', hScost z hz'⟩
            · rw [List.length_insertIdx _ _ (by rw [List.length_append, htklen]; omega)]
              rw [List.length_append, htklen, List.length_dropLast, hSlenN]
              omega
          · -- not full: plain insert at the partition point
            refine ⟨(bag.take p ++
                (bag.drop p).filter fun l => decide (l.cost < new.cost)).insertIdx
                  p new, true, ?_, ?_, ?_⟩
            · simp only [bagAdd, hE, Bool.false_eq_true, if_false, hpart,
                Option.isNone_some, Option.getD_some]
              rw [if_neg (by simp [hdom]), if_neg hrep, if_neg hfull]
            · have hins := insertIdx_append_cons (bag.take p)
                ((bag.drop p).filter fun l => decide (l.cost < new.cost)) new
              rw [htklen] at hins
              rw [hins]
              apply pairwise_insert_middle
              · exact List.Pairwise.sublist (List.take_sublist _ _) hPW
              · exact hSpw
              · exact fun x hx => ⟨hPlt x hx, hcost x hx⟩
              · exact fun z hz => ⟨hSarr z hz, hScost z hz⟩
            · rw [List.length_insertIdx _ _ (by rw [List.length_append, htklen]; omega)]
              omega
    | none =>
      have hall := partitionIdx_none new bag hpart
      have hlen0 : bag.length ≠ 0 := fun hc => hne (List.length_eq_zero.mp hc)
      by_cases hdomT : (bag.any fun l => decide (l.cost ≤ new.cost)) = true
      · refine ⟨bag, false, ?_, hPW, hlen⟩
        simp [bagAdd, hE, hpart, List.take_length, hdomT]
      · have hdom : (bag.any fun l => decide (l.cost ≤ new.cost)) = false := by
          rwa [Bool.not_eq_true] at hdomT
        have hcost := not_any_cost hdom
        by_cases hrep : bag.length ≠ 0 ∧
            (bag.getD (bag.length - 1) dfl).arrival_time = new.arrival_time
        · -- equal-arrival replacement of the last label
          have hp1lt : bag.length - 1 < bag.length := by omega
          have hprevmem : bag.getD (bag.length - 1) dfl ∈ bag := getD_mem _ _ _ hp1lt
          have hprevc : new.cost < (bag.getD (bag.length - 1) dfl).cost :=
            hcost _ hprevmem
          refine ⟨bag.set (bag.length - 1) new, true, ?_, ?_, ?_⟩
          · simp only [bagAdd, hE, Bool.false_eq_true, if_false, hpart,
              Option.isNone_none, Option.getD_none, eq_self_iff_true, if_true,
              List.take_length]
            rw [if_neg (by simp [hdom]), if_pos hrep, if_pos hprevc]
          · rw [List.set_eq_take_cons_drop new hp1lt]
            have hd : bag.length - 1 + 1 = bag.length := by omega
            rw [hd, List.drop_length]
            apply pairwise_insert_middle
            · exact List.Pairwise.sublist (List.take_sublist _ _) hPW
            · exact List.Pairwise.nil
            · intro x hx
              have hrel := pairwise_take_rel hPW (bag.length - 1) hp1lt x hx
              refine ⟨?_, hcost x (List.take_subset _ _ hx)⟩
              have := hrel.1
              have := hrep.2
              omega
            · intro z hz
              exact absurd hz (List.not_mem_nil z)
          · rw [List.length_set]
            exact hlen
        · -- no replacement
          have harrne : (bag.getD (bag.length - 1) dfl).arrival_time ≠
              new.arrival_time := by
            intro hc
            exact hrep ⟨hlen0, hc⟩
          by_cases hfull : bag.length = N
          · -- full and the new label is last: refuse
            have hlast_le : (bag.getD (bag.length - 1) dfl).arrival_time ≤
                new.arrival_time := hall _ (getD_mem _ _ _ (by omega))
            have hnlt : ¬ new.arrival_time < (bag.getLastD dfl).arrival_time := by
              rw [getLastD_eq_getD bag dfl hne]
              omega
            refine ⟨bag, false, ?_, hPW, hlen⟩
            simp only [bagAdd, hE, Bool.false_eq_true, if_false, hpart,
              Option.isNone_none, Option.getD_none, eq_self_iff_true, if_true,
              List.take_length]
            rw [if_neg (by simp [hdom]), if_neg hrep, if_pos hfull, if_neg hnlt]
          · -- append the new label at the end
            have hPstrict : ∀ x ∈ bag, x.arrival_time < new.arrival_time := by
              intro x hx
              have h1 := hall x hx
              have h2 := arr_le_last hPW hne x hx
              have h3 := hall _ (getD_mem _ (bag.length - 1) dfl (by omega))
              omega
            have hins0 := insertIdx_append_cons bag ([] : List Label) new
            rw [List.append_nil] at hins0
            refine ⟨bag.insertIdx bag.length new, true, ?_, ?_, ?_⟩
            · simp only [bagAdd, hE, Bool.false_eq_true, if_false, hpart,
                Option.isNone_none, Option.getD_none, eq_self_iff_true, if_true,
                List.take_length]
              rw [if_neg (by simp [hdom]), if_neg hrep, if_neg hfull]
            · rw [hins0]
              apply pairwise_insert_middle hPW List.Pairwise.nil
              · exact fun x hx => ⟨hPstrict x hx, hcost x hx⟩
              · exact fun z hz => absurd hz (List.not_mem_nil z)
            · rw [List.length_insertIdx _ _ (le_refl _)]
              omega

theorem bagAddAll_inv {N : ℕ} (hN : 1 ≤ N) :
    ∀ (ls : List Label) (bag : List Label), bag.Pairwise Rlab → bag.length ≤ N →
      ∃ bagF rs, bagAddAll N ls bag = some (bagF, rs) ∧
        bagF.Pairwise Rlab ∧ bagF.length ≤ N := by
  intro ls
  induction ls with
  | nil => intro bag hPW hlen; exact ⟨bag, [], rfl, hPW, hlen⟩
  | cons l ls ih =>
    intro bag hPW hlen
    obtain ⟨bag1, r, hval, hPW1, hlen1⟩ := bagAdd_some_inv hN bag l hPW hlen
    obtain ⟨bagF, rs, hvalF, hPWF, hlenF⟩ := ih bag1 hPW1 hlen1
    exact ⟨bagF, r :: rs, by simp [bagAddAll, hval, hvalF], hPWF, hlenF⟩

/-- For all bags within capacity, `bagAdd` panics nowhere except on the
capacity-0 empty push, and its boolean result is `true` exactly when the
returned label list differs from the input — the "mutated" reading of the
contract. -/
theorem bagAdd_true_iff {N : ℕ} (bag : List Label) (new : Label)
    (hlen : bag.length ≤ N) :
    ∀ bag1 r, bagAdd N bag new = some (bag1, r) → (r = true ↔ bag1 ≠ bag) := by
  intro bag1 r h
  by_cases hE0 : bag.isEmpty
  · have hbag : bag = [] := by simpa using hE0
    subst hbag
    by_cases hN0 : N = 0
    · simp [bagAdd, hN0] at h
    · simp [bagAdd, hN0] at h
      obtain ⟨h1, h2⟩ := h
      subst h1
      subst h2
      simp
  · have hE : bag.isEmpty = false := by rwa [Bool.not_eq_true] at hE0
    have hne : bag ≠ [] := by simpa using hE
    have hlen0 : bag.length ≠ 0 := fun hc => hne (List.length_eq_zero.mp hc)
    cases hpart : partitionIdx new bag with
    | some p =>
      obtain ⟨hplt, htakele, hgetp⟩ := partitionIdx_some new bag p hpart
      have htklen : (bag.take p).length = p := by
        simp [List.length_take]
        omega
      by_cases hdomT : ((bag.take p).any fun l => decide (l.cost ≤ new.cost)) = true
      · rw [show bagAdd N bag new = some (bag, false) from by
          simp [bagAdd, hE, hpart, hdomT]] at h
        simp only [Option.some.injEq, Prod.mk.injEq] at h
        obtain ⟨h1, h2⟩ := h
        subst h1
        subst h2
        simp
      · have hdom : ((bag.take p).any fun l => decide (l.cost ≤ new.cost)) = false := by
          rwa [Bool.not_eq_true] at hdomT
        have hcost := not_any_cost hdom
        have hlab1len : (bag.take p ++
            (bag.drop p).filter fun l => decide (l.cost < new.cost)).length ≤
              bag.length := by
          rw [List.length_append, htklen]
          have h1 := (List.filter_sublist (l := bag.drop p)
            (p := fun l => decide (l.cost < new.cost))).length_le
          have := List.length_drop p bag
          omega
        have hprev_eq : p ≠ 0 →
            ((bag.take p ++ (bag.drop p).filter fun l => decide (l.cost < new.cost)).getD
              (p - 1) dfl) = bag.getD (p - 1) dfl := by
          intro hp0
          rw [List.getD_append _ _ _ _ (by rw [htklen]; omega),
            getD_take_of_lt _ _ _ _ (by omega)]
        by_cases hrep : p ≠ 0 ∧
            ((bag.take p ++ (bag.drop p).filter fun l => decide (l.cost < new.cost)).getD
              (p - 1) dfl).arrival_time = new.arrival_time
        · -- replacement branch: new label strictly cheaper than the label it replaces
          by_cases hprevc : new.cost <
              ((bag.take p ++ (bag.drop p).filter fun l =>
                decide (l.cost < new.cost)).getD (p - 1) dfl).cost
          · rw [show bagAdd N bag new = some ((bag.take p ++
                (bag.drop p).filter fun l => decide (l.cost < new.cost)).set
                  (p - 1) new, true) from by
              simp only [bagAdd, hE, Bool.false_eq_true, if_false, hpart,
                Option.isNone_some, Option.getD_some]
              rw [if_neg (by simp [hdom]), if_pos hrep, if_pos hprevc]] at h
            simp only [Option.some.injEq, Prod.mk.injEq] at h
            obtain ⟨h1, h2⟩ := h
            subst h1
            subst h2
            simp only [true_iff]
            intro hcontra
            have hidx : p - 1 < (bag.take p ++
                (bag.drop p).filter fun l => decide (l.cost < new.cost)).length := by
              rw [List.length_append, htklen]
              omega
            have hgd := getD_set_self (bag.take p ++
              (bag.drop p).filter fun l => decide (l.cost < new.cost)) (p - 1) new dfl hidx
            rw [hcontra] at hgd
            have hmem : bag.getD (p - 1) dfl ∈ bag.take p := by
              rw [getD_eq_getElem_of_lt _ _ _ (by omega : p - 1 < bag.length)]
              exact getElem_mem_take bag p (p - 1) (by omega) (by omega)
            have hlt := hcost _ hmem
            rw [hgd] at hlt
            exact lt_irrefl _ hlt
          · -- the source's `unreachable!`: contradicts the domination check
            exfalso
            have hprevmem : bag.getD (p - 1) dfl ∈ bag.take p := by
              rw [getD_eq_getElem_of_lt _ _ _ (by omega : p - 1 < bag.length)]
              exact getElem_mem_take bag p (p - 1) (by omega) (by omega)
            have := hcost _ hprevmem
            rw [← hprev_eq hrep.1] at this
            exact hprevc (lt_of_le_of_lt (le_of_eq rfl) this)
        · by_cases hfull : (bag.take p ++
              (bag.drop p).filter fun l => decide (l.cost < new.cost)).length = N
          · have hSlenN : ((bag.drop p).filter fun l =>
                decide (l.cost < new.cost)).length = N - p := by
              rw [List.length_append, htklen] at hfull
              omega
            have hSne : ((bag.drop p).filter fun l => decide (l.cost < new.cost)) ≠ [] := by
              intro hc
              rw [hc] at hSlenN
              simp at hSlenN
              omega
            rw [show bagAdd N bag new = some ((bag.take p ++
                (((bag.drop p).filter fun l =>
                  decide (l.cost < new.cost))).dropLast).insertIdx p new, true) from by
              simp only [bagAdd, hE, Bool.false_eq_true, if_false, hpart,
                Option.isNone_some, Option.getD_some]
              rw [if_neg (by simp [hdom]), if_neg hrep, if_pos hfull,
                dropLast_append_ne _ _ hSne]] at h
            simp only [Option.some.injEq, Prod.mk.injEq] at h
            obtain ⟨h1, h2⟩ := h
            subst h1
            subst h2
            simp only [true_iff]
            have hins := insertIdx_append_cons (bag.take p)
              (((bag.drop p).filter fun l => decide (l.cost < new.cost)).dropLast) new
            rw [htklen] at hins
            rw [hins]
            intro hcontra
            have hgd1 := getD_append_cons (bag.take p) new
              (((bag.drop p).filter fun l => decide (l.cost < new.cost)).dropLast) dfl
            rw [htklen] at hgd1
            rw [hcontra, getD_eq_getElem_of_lt bag p dfl hplt] at hgd1
            rw [getD_eq_getElem_of_lt bag p dfl hplt] at hgetp
            rw [hgd1] at hgetp
            exact lt_irrefl _ hgetp
          · rw [show bagAdd N bag new = some ((bag.take p ++
                (bag.drop p).filter fun l => decide (l.cost < new.cost)).insertIdx
                  p new, true) from by
              simp only [bagAdd, hE, Bool.false_eq_true, if_false, hpart,
                Option.isNone_some, Option.getD_some]
              rw [if_neg (by simp [hdom]), if_neg hrep, if_neg hfull]] at h
            simp only [Option.some.injEq, Prod.mk.injEq] at h
            obtain ⟨h1, h2⟩ := h
            subst h1
            subst h2
            simp only [true_iff]
            have hins := insertIdx_append_cons (bag.take p)
              ((bag.drop p).filter fun l => decide (l.cost < new.cost)) new
            rw [htklen] at hins
            rw [hins]
            intro hcontra
            have hgd1 := getD_append_cons (bag.take p) new
              ((bag.drop p).filter fun l => decide (l.cost < new.cost)) dfl
            rw [htklen] at hgd1
            rw [hcontra, getD_eq_getElem_of_lt bag p dfl hplt] at hgd1
            rw [getD_eq_getElem_of_lt bag p dfl hplt] at hgetp
            rw [hgd1] at hgetp
            exact lt_irrefl _ hgetp
    | none =>
      have hall := partitionIdx_none new bag hpart
      by_cases hdomT : (bag.any fun l => decide (l.cost ≤ new.cost)) = true
      · rw [show bagAdd N bag new = some (bag, false) from by
          simp [bagAdd, hE, hpart, List.take_length, hdomT]] at h
        simp only [Option.some.injEq, Prod.mk.injEq] at h
        obtain ⟨h1, h2⟩ := h
        subst h1
        subst h2
        simp
      · have hdom : (bag.any fun l => decide (l.cost ≤ new.cost)) = false := by
          rwa [Bool.not_eq_true] at hdomT
        have hcost := not_any_cost hdom
        by_cases hrep : bag.length ≠ 0 ∧
            (bag.getD (bag.length - 1) dfl).arrival_time = new.arrival_time
        · by_cases hprevc : new.cost < (bag.getD (bag.length - 1) dfl).cost
          · rw [show bagAdd N bag new = some (bag.set (bag.length - 1) new, true) from by
              simp only [bagAdd, hE, Bool.false_eq_true, if_false, hpart,
                Option.isNone_none, Option.getD_none, eq_self_iff_true, if_true,
                List.take_length]
              rw [if_neg (by simp [hdom]), if_pos hrep, if_pos hprevc]] at h
            simp only [Option.some.injEq, Prod.mk.injEq] at h
            obtain ⟨h1, h2⟩ := h
            subst h1
            subst h2
            simp only [true_iff]
            intro hcontra
            have hidx : bag.length - 1 < bag.length := by omega
            have hgd := getD_set_self bag (bag.length - 1) new dfl hidx
            rw [hcontra] at hgd
            have hmem : bag.getD (bag.length - 1) dfl ∈ bag := getD_mem _ _ _ hidx
            have hlt := hcost _ hmem
            rw [hgd] at hlt
            exact lt_irrefl _ hlt
          · exfalso
            have hprevmem : bag.getD (bag.length - 1) dfl ∈ bag :=
              getD_mem _ _ _ (by omega)
            exact hprevc (hcost _ hprevmem)
        · by_cases hfull : bag.length = N
          · have hnlt : ¬ new.arrival_time < (bag.getLastD dfl).arrival_time := by
              rw [getLastD_eq_getD bag dfl hne]
              have := hall _ (getD_mem bag (bag.length - 1) dfl (by omega))
              omega
            rw [show bagAdd N bag new = some (bag, false) from by
              simp only [bagAdd, hE, Bool.false_eq_true, if_false, hpart,
                Option.isNone_none, Option.getD_none, eq_self_iff_true, if_true,
                List.take_length]
              rw [if_neg (by simp [hdom]), if_neg hrep, if_pos hfull, if_neg hnlt]] at h
            simp only [Option.some.injEq, Prod.mk.injEq] at h
            obtain ⟨h1, h2⟩ := h
            subst h1
            subst h2
            simp
          · rw [show bagAdd N bag new = some (bag.insertIdx bag.length new, true) from by
              simp only [bagAdd, hE, Bool.false_eq_true, if_false, hpart,
                Option.isNone_none, Option.getD_none, eq_self_iff_true, if_true,
                List.take_length]
              rw [if_neg (by simp [hdom]), if_neg hrep, if_neg hfull]] at h
            simp only [Option.some.injEq, Prod.mk.injEq] at h
            obtain ⟨h1, h2⟩ := h
            subst h1
            subst h2
            simp only [true_iff]
            have hins0 := insertIdx_append_cons bag ([] : List Label) new
            rw [List.append_nil] at hins0
            rw [hins0]
            intro hcontra
            have := congrArg List.length hcontra
            simp at this

end MC

/-- C4: after any sequence of `Bag::add` calls starting from the empty bag
(of any positive capacity `N`) no call panics, the stored labels are pairwise
non-dominating and sorted by strictly increasing arrival time (hence strictly
decreasing cost), and the bag never holds more than `N` labels. -/
theorem c4_bag_invariant (N : ℕ) (ls : List MC.Label) (hN : 1 ≤ N) :
    ∃ bag, MC.bagInsertAll N ls = some bag ∧
      bag.Pairwise (fun a b => ¬ a.dominates b ∧ ¬ b.dominates a ∧
        a.arrival_time < b.arrival_time ∧ b.cost < a.cost) ∧
      bag.length ≤ N := by
  obtain ⟨bagF, rs, hval, hPW, hlen⟩ :=
    MC.bagAddAll_inv hN ls [] List.Pairwise.nil (by simp)
  refine ⟨bagF, by simp [MC.bagInsertAll, hval], ?_, hlen⟩
  refine hPW.imp ?_
  intro a b hab
  obtain ⟨h1, h2⟩ := hab
  refine ⟨?_, ?_, h1, h2⟩
  · intro hd
    exact absurd hd.2 (not_le.mpr h2)
  · intro hd
    exact absurd hd.1 (not_le.mpr h1)

theorem c4_bag_invariant_witness :
    (1 ≤ 5) ∧ ∃ bag, MC.bagInsertAll 5 MC.bagTestSeq = some bag ∧
      bag.Pairwise (fun a b => ¬ a.dominates b ∧ ¬ b.dominates a ∧
        a.arrival_time < b.arrival_time ∧ b.cost < a.cost) ∧
      bag.length ≤ 5 :=
  ⟨by decide, c4_bag_invariant 5 MC.bagTestSeq (by decide)⟩

/-- C3: `Bag::add` returns `true` iff the bag was mutated (for any bag within
its capacity), and the literal call sequence of the spec's bag tests from the
empty `Bag<5>` produces exactly the stated boolean results: the sizes rise
1, 1, 4 and fall to 2 at `add(2,5)`/`add(1,4.5)`, and the final full bag has
dropped `(10, 1.7)` in favour of `(6, 4.0)`. -/
theorem c3_bag_add_contract :
    (∀ (N : ℕ) (bag : List MC.Label) (new : MC.Label), bag.length ≤ N →
        ∀ bag1 r, MC.bagAdd N bag new = some (bag1, r) → (r = true ↔ bag1 ≠ bag))
      ∧ MC.bagAddAll 5 MC.bagTestSeq [] = some (MC.bagTestFinal, MC.bagTestResults)
      ∧ (MC.bagAddAll 5 (MC.bagTestSeq.take 6) []).map (fun pr => pr.1.length) = some 1
      ∧ (MC.bagAddAll 5 (MC.bagTestSeq.take 9) []).map (fun pr => pr.1.length) = some 4
      ∧ (MC.bagAddAll 5 (MC.bagTestSeq.take 11) []).map (fun pr => pr.1.length) = some 2
      ∧ (MC.bagAddAll 5 (MC.bagTestSeq.take 14) []).map (fun pr => pr.1.length) = some 2
      ∧ (MC.bagAddAll 5 (MC.bagTestSeq.take 17) []).map (fun pr => pr.1.length) = some 5
      ∧ MC.bagTestFinal.length = 5 := by
  refine ⟨?_, by decide, by decide, by decide, by decide, by decide, by decide, by decide⟩
  intro N bag new hlen bag1 r h
  exact MC.bagAdd_true_iff bag new hlen bag1 r h

theorem c3_bag_add_contract_witness :
    ([] : List MC.Label).length ≤ 5 ∧
      MC.bagAdd 5 [] (MC.Label.new 5 5) = some ([MC.Label.new 5 5], true) ∧
      (true = true ↔ [MC.Label.new 5 5] ≠ ([] : List MC.Label)) :=
  ⟨by decide, by decide,
    c3_bag_add_contract.1 5 [] (MC.Label.new 5 5) (by decide)
      [MC.Label.new 5 5] true (by decide)⟩

end RaptorRS
